import Mathlib

/-!
Verification of the multi-strategy local search core of the milesalone
travel-journal application.

The development shallowly embeds the relevant TypeScript sources:

* `src/lib/enhanced-search.ts` — `EnhancedSearchService` (`search`,
  `semanticSearch`, `buildSearchIndex`, `generateSnippet`, the fuzzy tier,
  the NLP tier and the map-based result fusion);
* the NLP service (`NLPService`): `extractTopics`, `categorizeContent`,
  `extractFilters`, `generateTags`;
* the enrichment feedback loop of `universal-search.tsx` together with
  `AIService.enhancedSearch` of `image-processing.ts`.

Modelling conventions:

* JavaScript numbers are modelled by exact fractions (`Score`, an integer
  numerator with a positive natural denominator, compared by cross
  multiplication); every constant of the source (0.8, 0.6, 0.3, ...) is
  exactly representable, so all threshold comparisons of the source are
  exact here.
* External libraries (Fuse.js match quality, compromise.js entity and noun
  extraction) are inputs of the model: a `SearchConfig` carries the fuzzy
  match oracle and the parsed-query oracle, and theorems quantify over
  them.  Everything the repository itself computes is translated from the
  source.
* The `search -> searchWithNLP -> search` recursion of the source has no
  termination guarantee, so the embedding takes an explicit recursion
  budget (`fuel`); `fuel = 0` makes the NLP tier contribute nothing, and
  all theorems hold for every budget.
* JavaScript string primitives used by the source (`toLowerCase`,
  `includes`, `split`, `trim`, `substring`, `join`) are re-implemented
  over `List Char`; all data handled by the claims is ASCII, where these
  agree with the JS semantics.
-/

/-! ## Exact fractional scores (model of JS numbers) -/

/-- An exact fraction with a positive denominator, the model of the
JavaScript floating point scores of the search service. -/
structure Score where
  num : Int
  den : Nat
  dpos : 0 < den

theorem Score.ext' {a b : Score} (hn : a.num = b.num) (hd : a.den = b.den) :
    a = b := by
  cases a; cases b; simp_all

instance : DecidableEq Score := fun a b =>
  decidable_of_iff (a.num = b.num ∧ a.den = b.den)
    ⟨fun h => Score.ext' h.1 h.2, fun h => by cases h; exact ⟨rfl, rfl⟩⟩

/-- Fraction subtraction (cross multiplication, no normalization). -/
def Score.sub (a b : Score) : Score :=
  ⟨a.num * (b.den : Int) - b.num * (a.den : Int), a.den * b.den,
    Nat.mul_pos a.dpos b.dpos⟩

/-- Fraction multiplication (no normalization). -/
def Score.mul (a b : Score) : Score :=
  ⟨a.num * b.num, a.den * b.den, Nat.mul_pos a.dpos b.dpos⟩

/-- `a ≤ b` on fractions by cross multiplication. -/
def Score.le (a b : Score) : Prop := a.num * (b.den : Int) ≤ b.num * (a.den : Int)

/-- `a < b` on fractions by cross multiplication. -/
def Score.lt (a b : Score) : Prop := a.num * (b.den : Int) < b.num * (a.den : Int)

instance (a b : Score) : Decidable (Score.le a b) := by
  unfold Score.le; exact inferInstance

instance (a b : Score) : Decidable (Score.lt a b) := by
  unfold Score.lt; exact inferInstance

/-- Make a score from a numerator and a positive denominator. -/
def Score.ofFrac (n : Int) (d : Nat) : Score :=
  ⟨n, d.max 1, Nat.lt_of_lt_of_le Nat.one_pos (Nat.le_max_right d 1)⟩

/-- The constant 1. -/
def Score.one : Score := Score.ofFrac 1 1

theorem Score.le_refl (a : Score) : Score.le a a := by
  unfold Score.le; exact le_rfl

theorem Score.le_of_lt {a b : Score} (h : Score.lt a b) : Score.le a b := by
  unfold Score.lt at h; unfold Score.le; omega

theorem Score.le_of_not_lt {a b : Score} (h : ¬ Score.lt a b) : Score.le b a := by
  unfold Score.lt at h; unfold Score.le; omega

theorem Score.le_trans {a b c : Score} (h1 : Score.le a b) (h2 : Score.le b c) :
    Score.le a c := by
  unfold Score.le at h1 h2 ⊢
  have hb : (0 : Int) < (b.den : Int) := by exact_mod_cast b.dpos
  have h1' := mul_le_mul_of_nonneg_right h1 (Int.ofNat_nonneg c.den)
  have h2' := mul_le_mul_of_nonneg_right h2 (Int.ofNat_nonneg a.den)
  have key : a.num * (c.den : Int) * (b.den : Int) ≤
      c.num * (a.den : Int) * (b.den : Int) := by nlinarith
  exact le_of_mul_le_mul_right key hb

theorem Score.mul_le_mul_right {a b : Score} (c : Score) (hc : 0 ≤ c.num)
    (h : Score.le a b) : Score.le (Score.mul a c) (Score.mul b c) := by
  unfold Score.le at h ⊢
  unfold Score.mul
  simp only
  push_cast
  have hcd : (0 : Int) ≤ (c.den : Int) := Int.ofNat_nonneg c.den
  nlinarith [mul_le_mul_of_nonneg_right h (mul_nonneg hc hcd)]

/-! ## JS string primitives over `List Char` -/

/-- Model of JS `String.prototype.toLowerCase` (ASCII-faithful). -/
def lowerStr (s : String) : String := String.mk (s.data.map Char.toLower)

/-- Whether `needle` occurs as an infix of `hay` (both as char lists). -/
def listContains (needle : List Char) : List Char → Bool
  | [] => needle.isEmpty
  | c :: rest => needle.isPrefixOf (c :: rest) || listContains needle rest

/-- Model of JS `hay.includes(needle)`. -/
def strContains (hay needle : String) : Bool := listContains needle.data hay.data

/-- Model of JS `s.split(sep)` for a single-character separator. -/
def splitChar (sep : Char) : List Char → List (List Char)
  | [] => [[]]
  | c :: cs =>
    if c = sep then [] :: splitChar sep cs
    else
      match splitChar sep cs with
      | [] => [[c]]
      | w :: ws => (c :: w) :: ws

/-- Model of JS `q.split(' ')`. -/
def splitSpaces (s : String) : List String := (splitChar ' ' s.data).map String.mk

/-- Fuel-driven splitter on runs of separator characters, the model of
JS `content.split(/[.!?]+/)`.  The fuel is instantiated with the length
of the input, which suffices because every recursive step consumes at
least one character. -/
def splitRunsF (p : Char → Bool) : Nat → List Char → List (List Char)
  | _, [] => [[]]
  | 0, l => [l.takeWhile (fun c => !p c)]
  | fuel + 1, l =>
    let w := l.takeWhile (fun c => !p c)
    match l.dropWhile (fun c => !p c) with
    | [] => [w]
    | _ :: rest => w :: splitRunsF p fuel (rest.dropWhile p)

/-- Split a string on maximal runs of characters satisfying `p`. -/
def splitRuns (p : Char → Bool) (s : String) : List String :=
  (splitRunsF p s.data.length s.data).map String.mk

/-- Model of JS `s.trim()`. -/
def jsTrim (s : String) : String :=
  String.mk (((s.data.dropWhile Char.isWhitespace).reverse.dropWhile
    Char.isWhitespace).reverse)

/-- Model of JS `s.substring(0, n)`. -/
def jsTake (n : Nat) (s : String) : String := String.mk (s.data.take n)

/-- Model of JS `xs.join(' ')`. -/
def joinSpace : List String → String
  | [] => ""
  | [x] => x
  | x :: y :: rest => x ++ " " ++ joinSpace (y :: rest)

/-- Model of JS `a || b` on strings (empty string is falsy). -/
def orEmpty (a b : String) : String := if a = "" then b else a

theorem dropWhile_length_le {α : Type} (p : α → Bool) (l : List α) :
    (l.dropWhile p).length ≤ l.length := by
  induction l with
  | nil => simp
  | cons a t ih =>
    by_cases h : p a
    · simp only [List.dropWhile, h, List.length_cons]; omega
    · simp [List.dropWhile, h]

theorem jsTrim_length_le (s : String) : (jsTrim s).length ≤ s.length := by
  show (((s.data.dropWhile _).reverse.dropWhile _).reverse).length ≤ s.data.length
  have h1 := @dropWhile_length_le Char
  calc (((s.data.dropWhile Char.isWhitespace).reverse.dropWhile
        Char.isWhitespace).reverse).length
      = ((s.data.dropWhile Char.isWhitespace).reverse.dropWhile
        Char.isWhitespace).length := by rw [List.length_reverse]
    _ ≤ (s.data.dropWhile Char.isWhitespace).reverse.length := h1 _ _
    _ = (s.data.dropWhile Char.isWhitespace).length := by rw [List.length_reverse]
    _ ≤ s.data.length := h1 _ _

/-! ## NLP service (`NLPService` of `nlp-service.ts`)

`compromise.js` calls (`doc.nouns()`, `doc.people()`, `doc.places()`) are
external-library oracles; everything computed by the repository itself
(keyword tables, substring tests, filter derivation, tag assembly) is
translated from the source. -/

/-- The four topic keyword sets of `NLPService.extractTopics`, in the
iteration order of the source. -/
def topicTable : List (String × List String) :=
  [("travel", ["travel", "trip", "vacation", "journey", "adventure", "explore",
      "visit", "tour"]),
   ("food", ["food", "restaurant", "meal", "cuisine", "dining", "eat", "taste",
      "cook"]),
   ("culture", ["culture", "museum", "temple", "church", "monument", "art",
      "history"]),
   ("nature", ["nature", "mountain", "beach", "forest", "park", "hiking",
      "outdoor"])]

/-- The eight category keyword sets of `NLPService.categorizeContent`, in
the `Object.entries` order of the source. -/
def categoryTable : List (String × List String) :=
  [("food", ["food", "restaurant", "meal", "eat", "cook", "taste", "cuisine",
      "dish"]),
   ("travel", ["travel", "trip", "vacation", "journey", "flight", "hotel",
      "booking"]),
   ("culture", ["museum", "temple", "church", "monument", "art", "history",
      "culture"]),
   ("nature", ["nature", "mountain", "beach", "forest", "park", "hiking",
      "outdoor"]),
   ("adventure", ["adventure", "explore", "expedition", "trekking", "climbing",
      "extreme"]),
   ("entertainment", ["movie", "show", "concert", "festival", "party", "music",
      "dance"]),
   ("shopping", ["shop", "buy", "purchase", "market", "store", "mall",
      "souvenir"]),
   ("transport", ["transport", "bus", "train", "taxi", "uber", "drive",
      "walk"])]

/-- Does any keyword of `kws` occur in the lowercased text? -/
def anyKeyword (textLower : String) (kws : List String) : Bool :=
  kws.any (fun kw => strContains textLower kw)

/-- `NLPService.extractTopics`: a label is emitted when one of its keywords
occurs as a substring of the lowercased text; only the four sets above are
consulted. -/
def extractTopics (text : String) : List String :=
  (topicTable.filter (fun p => anyKeyword (lowerStr text) p.2)).map Prod.fst

/-- `NLPService.categorizeContent`: same keyword-membership rule over the
eight category sets. -/
def categorizeContent (text : String) : List String :=
  (categoryTable.filter (fun p => anyKeyword (lowerStr text) p.2)).map Prod.fst

/-- A start-of-range marker of a derived date filter.  The source computes
an ISO timestamp from the current clock; the model keeps the symbolic
branch that fired, since real time is outside the embedding. -/
inductive DateMark where
  | lastWeekStart
  | thisMonthStart
deriving DecidableEq, Repr

/-- An amount range filter, as in `SearchQuery['filters']['amount']`. -/
structure AmountFilter where
  min : Option Nat
  max : Option Nat
deriving DecidableEq, Repr

/-- A derived date range filter. -/
structure DateRangeFilter where
  start : Option DateMark
deriving DecidableEq, Repr

/-- The `filters` object of a parsed search query. -/
structure Filters where
  type : Option String := none
  location : Option String := none
  person : Option String := none
  dateRange : Option DateRangeFilter := none
  category : Option String := none
  amount : Option AmountFilter := none
deriving DecidableEq, Repr

/-- The keyword-to-type table of `NLPService.extractFilters`, in source
order; a later match overwrites an earlier one. -/
def typeKeywordTable : List (String × String) :=
  [("temple", "culture"), ("restaurant", "food"), ("museum", "culture"),
   ("hotel", "accommodation"), ("flight", "transport")]

/-- `NLPService.extractFilters`.  `places` and `people` are the
compromise.js extraction results for the query (external oracles); all
keyword tests run on the lowercased raw query, as in the source. -/
def extractFilters (places people : List String) (query : String) : Filters :=
  let text := lowerStr query
  let f0 : Filters := {}
  let f1 := match places with
    | [] => f0
    | p :: _ => { f0 with location := some p }
  let f2 := match people with
    | [] => f1
    | p :: _ => { f1 with person := some p }
  let f3 := if strContains text "expensive" || strContains text "costly" then
      { f2 with amount := some ⟨some 50, none⟩ } else f2
  let f4 := if strContains text "cheap" || strContains text "budget" then
      { f3 with amount := some ⟨none, some 20⟩ } else f3
  let f5 := if strContains text "last week" then
      { f4 with dateRange := some ⟨some DateMark.lastWeekStart⟩ } else f4
  let f6 := if strContains text "this month" then
      { f5 with dateRange := some ⟨some DateMark.thisMonthStart⟩ } else f5
  typeKeywordTable.foldl
    (fun f p => if strContains text p.1 then { f with type := some p.2 } else f) f6

/-- Worker of `dedupFirst`: `seen` is the set of already kept entries. -/
def dedupGo (seen : List String) : List String → List String
  | [] => []
  | a :: rest =>
    if a ∈ seen then dedupGo seen rest else a :: dedupGo (a :: seen) rest

/-- First-occurrence-preserving deduplication, the model of inserting into
a JS `Set` and reading it back in insertion order. -/
def dedupFirst (l : List String) : List String := dedupGo [] l

/-- `NLPService.generateTags`.  `nouns` is the compromise.js
`doc.nouns()` oracle for the text; topics, the explicit type and the
categories are appended in source order, the whole set is capped at 10. -/
def generateTags (nouns : List String) (text : String) (type? : Option String) :
    List String :=
  let nounTags := (nouns.filter (fun n => 2 < n.length ∧ n.length < 20)).map lowerStr
  let typeTags := match type? with
    | some t => [t]
    | none => []
  (dedupFirst (nounTags ++ extractTopics text ++ typeTags ++
    categorizeContent text)).take 10

/-! ## Searchable items and results (`enhanced-search.ts`) -/

/-- A searchable record, the model of `SearchableItem`.  Optional JS
fields are plain strings with `""` for an absent value, matching JS
falsiness for both `undefined` and the empty string.  `type` models the
`_type` collection tag, `searchableText` the precomputed blob. -/
structure Item where
  id : String
  title : String := ""
  name : String := ""
  description : String := ""
  content : String := ""
  location : String := ""
  tags : List String := []
  type : String := ""
  searchableText : String := ""
deriving DecidableEq, Repr

/-- A scored search result, the model of `EnhancedSearchResult` (the
spread item plus `_score`, `_matchedFields`, `_snippet`). -/
structure ResultEntry where
  item : Item
  score : Score
  matchedFields : List String
  snippet : String
deriving DecidableEq

/-- The options of `search` with the source's defaults
(`limit = 20`, `threshold = 0.3`). -/
structure SOptions where
  modules : Option (List String) := none
  limit : Nat := 20
  threshold : Score := Score.ofFrac 3 10

/-- The 0.8 factor applied to fuzzy-tier scores. -/
def c08 : Score := Score.ofFrac 4 5

/-- The 0.6 factor applied to NLP-tier scores. -/
def c06 : Score := Score.ofFrac 3 5

/-- The 0.7 factor applied to entity sub-query scores. -/
def c07 : Score := Score.ofFrac 7 10

/-- The 0.9 factor applied to person filter sub-query scores. -/
def c09 : Score := Score.ofFrac 9 10

/-! ### Snippet generation (`generateSnippet`) -/

/-- Characters the source splits sentences on (`/[.!?]+/`). -/
def isSentenceSep (c : Char) : Bool := c = '.' || c = '!' || c = '?'

/-- `item.description || item.content || item.title || item.name || ''`. -/
def snippetSource (it : Item) : String :=
  orEmpty it.description (orEmpty it.content (orEmpty it.title it.name))

/-- `query.toLowerCase().split(' ')`. -/
def queryWords (q : String) : List String := splitSpaces (lowerStr q)

/-- How many query words occur in the (lowercased) sentence. -/
def matchCount (qw : List String) (sentence : String) : Nat :=
  (qw.filter (fun w => strContains (lowerStr sentence) w)).length

/-- The sentence with the strictly largest match count, first winner kept;
`""` with count 0 when no sentence matches any word. -/
def bestSentencePick (qw : List String) (sentences : List String) : String :=
  (sentences.foldl (fun acc s =>
    let m := matchCount qw s
    if acc.2 < m then (s, m) else acc) ("", 0)).1

/-- The sentence `generateSnippet` selects for an item and query. -/
def bestSentence (it : Item) (q : String) : String :=
  bestSentencePick (queryWords q) (splitRuns isSentenceSep (snippetSource it))

/-- `EnhancedSearchService.generateSnippet`: trim and cut the best
sentence to 150 characters, appending `"..."` when the untrimmed best
sentence is longer than 150 characters. -/
def generateSnippet (it : Item) (q : String) : String :=
  let best := bestSentence it q
  jsTake 150 (jsTrim best) ++ (if 150 < best.length then "..." else "")

/-! ### The result map (JS `Map` keyed by `type + "-" + id`) -/

/-- The dedup key of a result, `` `${item._type}-${item.id}` ``. -/
def keyOf (r : ResultEntry) : String := r.item.type ++ "-" ++ r.item.id

/-- Association list in insertion order, the model of the JS `Map`. -/
abbrev RMap := List (String × ResultEntry)

/-- `Map.get`. -/
def rlookup : RMap → String → Option ResultEntry
  | [], _ => none
  | (k', v) :: m, k => if k' = k then some v else rlookup m k

/-- `Map.set`: overwrite in place when present, append when fresh. -/
def rinsert : RMap → String → ResultEntry → RMap
  | [], k, v => [(k, v)]
  | (k', v') :: m, k, v =>
    if k' = k then (k, v) :: m else (k', v') :: rinsert m k v

/-! ### The external oracles -/

/-- The compromise.js entity extraction result for one text. -/
structure EntitiesM where
  people : List String := []
  places : List String := []
  organizations : List String := []
  money : List String := []
  dates : List String := []
  topics : List String := []
  sentiment : String := "neutral"
  categories : List String := []
deriving Repr

/-- A parsed search query (`NLPService.parseSearchQuery`). -/
structure SearchQueryM where
  originalQuery : String := ""
  entities : EntitiesM := {}
  searchTerms : List String := []
  filters : Filters := {}
deriving Repr

/-- The external collaborators of the search service: the Fuse.js match
oracle (query and processed item to optional library match distance and
matched keys, `none` when the library rejects the pair) and the
compromise.js-backed query parser. -/
structure SearchConfig where
  fuseMatch : String → Item → Option (Score × List String)
  nlpParse : String → SearchQueryM

/-! ### The fuzzy tier -/

/-- `fuseInstance.search(query, { limit })`: the library scans the
collection's processed items and returns at most `lim` matches. -/
def fuseList (cfg : SearchConfig) (q : String) (items : List Item) (lim : Nat) :
    List (Item × Score × List String) :=
  (items.filterMap (fun it => (cfg.fuseMatch q it).map (fun p => (it, p)))).take lim

/-- `!results.has(key) || results.get(key)!._score < score` (note: the
source compares the stored scaled score against the raw unscaled one). -/
def oldLt (m : RMap) (key : String) (s : Score) : Bool :=
  match rlookup m key with
  | none => true
  | some e => decide (Score.lt e.score s)

/-- The entry the fuzzy tier stores: the spread item, `_score = (1 -
distance) * 0.8`, the library's matched keys and a generated snippet. -/
def mkFuzzyEntry (q : String) (c : Item × Score × List String) : ResultEntry :=
  { item := c.1
    score := Score.mul (Score.sub Score.one c.2.1) c08
    matchedFields := c.2.2
    snippet := generateSnippet c.1 q }

/-- One `fuseResults.forEach` step of the fuzzy tier. -/
def fuzzyStep (q : String) (threshold : Score) (mt : String)
    (m : RMap) (c : Item × Score × List String) : RMap :=
  let key := mt ++ "-" ++ c.1.id
  let sim := Score.sub Score.one c.2.1
  if Score.le threshold sim ∧ oldLt m key sim = true then
    rinsert m key (mkFuzzyEntry q c)
  else m

/-- The fuzzy tier for one collection. -/
def fuzzyCollection (cfg : SearchConfig) (q : String) (opts : SOptions)
    (mt : String) (items : List Item) (m : RMap) : RMap :=
  (fuseList cfg q items opts.limit).foldl (fuzzyStep q opts.threshold mt) m

/-- `modules && !modules.includes(moduleType)` skip test, positively. -/
def allowedModule (ms : Option (List String)) (mt : String) : Bool :=
  match ms with
  | none => true
  | some l => decide (mt ∈ l)

/-- Tier 2 of `search`: iterate all Fuse instances.  (Tier 1, the
FlexSearch lookup, only logs in the source and contributes nothing.) -/
def fuzzyTier (cfg : SearchConfig) (fm : List (String × List Item))
    (q : String) (opts : SOptions) : RMap :=
  fm.foldl (fun m p =>
    if allowedModule opts.modules p.1 then fuzzyCollection cfg q opts p.1 p.2 m
    else m) []

/-! ### Max-score fusion and the NLP tier -/

/-- One step of the max-wins merge used by tier 3 and `semanticSearch`. -/
def mergeStep (m : RMap) (r : ResultEntry) : RMap :=
  match rlookup m (keyOf r) with
  | none => rinsert m (keyOf r) r
  | some e => if Score.lt e.score r.score then rinsert m (keyOf r) r else m

/-- Merge a candidate list into the running result map, keeping for every
key the maximum score seen. -/
def mergeMax (m : RMap) (l : List ResultEntry) : RMap := l.foldl mergeStep m

/-- The NLP-tier rescaling: `_score * 0.6`, `'nlp'` appended. -/
def scaleNlp (r : ResultEntry) : ResultEntry :=
  { r with
    score := Score.mul r.score c06
    matchedFields := r.matchedFields ++ ["nlp"] }

/-- Descending-score comparison used for the final sort. -/
def byScoreDesc (a b : ResultEntry) : Prop := Score.le b.score a.score

instance : DecidableRel byScoreDesc := fun a b =>
  inferInstanceAs (Decidable (Score.le b.score a.score))

/-- `sort((a, b) => b._score - a._score)`. -/
def sortDesc (l : List ResultEntry) : List ResultEntry :=
  l.insertionSort byScoreDesc

/-- `EnhancedSearchService.search` with an explicit recursion budget for
the `search -> searchWithNLP -> search` cycle of the source (which has no
termination guarantee); at budget 0 the NLP tier contributes nothing. -/
def searchFuel (cfg : SearchConfig) (fm : List (String × List Item)) :
    Nat → String → SOptions → List ResultEntry
  | 0, q, opts =>
    (sortDesc ((mergeMax (fuzzyTier cfg fm q opts) []).map Prod.snd)).take
      opts.limit
  | fuel + 1, q, opts =>
    let parsed := cfg.nlpParse q
    let nlpRes : List ResultEntry :=
      if parsed.searchTerms = [] then []
      else
        (searchFuel cfg fm fuel (joinSpace parsed.searchTerms)
          { modules := opts.modules
            limit := 10 }).map scaleNlp
    (sortDesc ((mergeMax (fuzzyTier cfg fm q opts) nlpRes).map Prod.snd)).take
      opts.limit

/-- The tier-3 candidate list (`searchWithNLP`) at a given budget. -/
def nlpResultsF (cfg : SearchConfig) (fm : List (String × List Item)) :
    Nat → String → SOptions → List ResultEntry
  | 0, _, _ => []
  | fuel + 1, q, opts =>
    let parsed := cfg.nlpParse q
    if parsed.searchTerms = [] then []
    else
      (searchFuel cfg fm fuel (joinSpace parsed.searchTerms)
        { modules := opts.modules
          limit := 10 }).map scaleNlp

theorem searchFuel_eq (cfg : SearchConfig) (fm : List (String × List Item))
    (fuel : Nat) (q : String) (opts : SOptions) :
    searchFuel cfg fm fuel q opts =
      (sortDesc ((mergeMax (fuzzyTier cfg fm q opts)
        (nlpResultsF cfg fm fuel q opts)).map Prod.snd)).take opts.limit := by
  cases fuel <;> rfl

/-! ### The fuzzy-tier candidates, as a plain list -/

/-- The candidates one collection contributes to the fuzzy tier: matches
whose unscaled similarity `1 - distance` passes the caller threshold. -/
def collCandidates (cfg : SearchConfig) (q : String) (opts : SOptions)
    (items : List Item) : List ResultEntry :=
  (fuseList cfg q items opts.limit).filterMap (fun c =>
    if Score.le opts.threshold (Score.sub Score.one c.2.1) then
      some (mkFuzzyEntry q c)
    else none)

/-- All fuzzy-tier candidates across collections. -/
def fuzzyCandidates (cfg : SearchConfig) (fm : List (String × List Item))
    (q : String) (opts : SOptions) : List ResultEntry :=
  fm.flatMap (fun p =>
    if allowedModule opts.modules p.1 then collCandidates cfg q opts p.2
    else [])

/-- Every scored candidate a `search` call produces before fusion: the
fuzzy-tier candidates and the rescaled NLP-tier results. -/
def searchContribs (cfg : SearchConfig) (fm : List (String × List Item))
    (fuel : Nat) (q : String) (opts : SOptions) : List ResultEntry :=
  fuzzyCandidates cfg fm q opts ++ nlpResultsF cfg fm fuel q opts

/-! ### `semanticSearch` -/

/-- `searchByEntity`: one sub-search per entity, scores scaled by 0.7. -/
def searchByEntity (cfg : SearchConfig) (fm : List (String × List Item))
    (fuel : Nat) (entityType : String) (entities : List String) :
    List ResultEntry :=
  entities.flatMap (fun e =>
    (searchFuel cfg fm fuel e { limit := 5 }).map (fun r =>
      { r with
        score := Score.mul r.score c07
        matchedFields := r.matchedFields ++ [entityType] }))

/-- `searchByFilters`: a location sub-search (0.8) and a person sub-search
restricted to the `people` collection (0.9); no other filter is used. -/
def searchByFilters (cfg : SearchConfig) (fm : List (String × List Item))
    (fuel : Nat) (filters : Filters) : List ResultEntry :=
  (match filters.location with
   | some loc =>
     (searchFuel cfg fm fuel loc { limit := 10 }).map (fun r =>
       { r with
         score := Score.mul r.score c08
         matchedFields := r.matchedFields ++ ["location"] })
   | none => []) ++
  (match filters.person with
   | some p =>
     (searchFuel cfg fm fuel p
         { modules := some ["people"]
           limit := 5 }).map
       (fun r =>
         { r with
           score := Score.mul r.score c09
           matchedFields := r.matchedFields ++ ["person"] })
   | none => [])

/-- `EnhancedSearchService.semanticSearch`: entity- and filter-based
sub-queries only, max-score dedup, module filter, sort, no limit. -/
def semanticSearch (cfg : SearchConfig) (fm : List (String × List Item))
    (fuel : Nat) (q : String) (modules : Option (List String)) :
    List ResultEntry :=
  let parsed := cfg.nlpParse q
  let peopleRes := if parsed.entities.people = [] then []
    else searchByEntity cfg fm fuel "people" parsed.entities.people
  let placesRes := if parsed.entities.places = [] then []
    else searchByEntity cfg fm fuel "places" parsed.entities.places
  let filterRes := searchByFilters cfg fm fuel parsed.filters
  sortDesc (((mergeMax [] (peopleRes ++ placesRes ++ filterRes)).map
    Prod.snd).filter (fun r => allowedModule modules r.item.type))

/-! ### Index building (`buildSearchIndex`) -/

/-- The eight record collections, in the iteration order of the source. -/
def stores : List String :=
  ["travelPins", "people", "journalEntries", "expenses", "checklistItems",
   "learningEntries", "foodEntries", "gearItems"]

/-- `createSearchableText`: the truthy searchable fields joined with a
space and lowercased. -/
def createSearchableText (it : Item) : String :=
  lowerStr (joinSpace (([it.title, it.name, it.description, it.content,
    it.location] ++ it.tags).filter (fun s => s ≠ "")))

/-- The per-item processing of `buildSearchIndex`: tag the item with its
collection and precompute the searchable text. -/
def processItem (storeName : String) (it : Item) : Item :=
  { it with type := storeName, searchableText := createSearchableText it }

/-- One loop iteration of `buildSearchIndex`: a successfully read
collection contributes its Fuse instance, a failing read is caught and
contributes nothing. -/
def processStore (store : String → Except String (List Item)) (s : String) :
    List (String × List Item) :=
  match store s with
  | Except.ok items => [(s, items.map (processItem s))]
  | Except.error _ => []

/-- The Fuse-instance map after the first `k` collections have been
processed (the map starts empty: the source clears it first). -/
def buildUpTo (store : String → Except String (List Item)) (k : Nat) :
    List (String × List Item) :=
  (stores.take k).foldl (fun m s => m ++ processStore store s) []

/-- `EnhancedSearchService.buildSearchIndex`, as the Fuse-instance map it
leaves behind. -/
def buildSearchIndex (store : String → Except String (List Item)) :
    List (String × List Item) :=
  buildUpTo store stores.length

/-- The Fuse-instance maps a concurrent reader can observe while
`buildSearchIndex` is suspended at its k-th `await database.getAll`:
the map has been cleared and holds exactly the first `k` collections. -/
def buildVisibleStates (store : String → Except String (List Item)) :
    List (List (String × List Item)) :=
  (List.range stores.length).map (fun k => buildUpTo store k)

/-! ### The enrichment feedback loop -/

/-- The enrichment service response contract. -/
structure AIResp where
  searchTerms : List String
  filters : List (String × String)
  suggestions : List String
deriving DecidableEq, Repr

/-- `AIService.enhancedSearch`: any failure is caught and replaced by the
substitute response `{searchTerms: [query], filters: {}, suggestions: []}`. -/
def aiEnhancedSearchModel (outcome : Except String AIResp) (q : String) :
    AIResp :=
  match outcome with
  | Except.ok r => r
  | Except.error _ =>
    { searchTerms := [q]
      filters := []
      suggestions := [] }

/-- The AI-enhancement block of `UniversalSearch.handleSearch`: when the
query is long and local results are few, consult the enrichment service
and replace the result set with a re-search over the returned terms only
when that yields strictly more results. -/
def handleAIEnhance (cfg : SearchConfig) (fm : List (String × List Item))
    (fuel : Nat) (q : String) (results : List ResultEntry)
    (outcome : Except String AIResp) : List ResultEntry :=
  if 8 < q.length ∧ results.length < 5 then
    let ai := aiEnhancedSearchModel outcome q
    if ai.searchTerms ≠ [] then
      let enhanced := searchFuel cfg fm fuel (joinSpace ai.searchTerms) {}
      if results.length < enhanced.length then enhanced else results
    else results
  else results

/-! ## Lemmas about the result map -/

theorem rlookup_cons (k' : String) (v' : ResultEntry) (m : RMap) (k : String) :
    rlookup ((k', v') :: m) k = if k' = k then some v' else rlookup m k := rfl

theorem rinsert_cons (k' : String) (v' : ResultEntry) (m : RMap) (k : String)
    (v : ResultEntry) :
    rinsert ((k', v') :: m) k v =
      if k' = k then (k, v) :: m else (k', v') :: rinsert m k v := rfl

/-- Invariant: the stored keys are pairwise distinct. -/
def KeysNodup (m : RMap) : Prop := m.Pairwise (fun p q => p.1 ≠ q.1)

/-- Invariant: every stored entry sits under its own dedup key. -/
def KeysMatch (m : RMap) : Prop := ∀ p ∈ m, p.1 = keyOf p.2

theorem rlookup_rinsert_self (m : RMap) (k : String) (v : ResultEntry) :
    rlookup (rinsert m k v) k = some v := by
  induction m with
  | nil => simp [rinsert, rlookup]
  | cons p m ih =>
    obtain ⟨k', v'⟩ := p
    rw [rinsert_cons]
    by_cases h : k' = k
    · rw [if_pos h, rlookup_cons, if_pos rfl]
    · rw [if_neg h, rlookup_cons, if_neg h, ih]

theorem rlookup_rinsert_ne (m : RMap) {k k'' : String} (v : ResultEntry)
    (h : k'' ≠ k) : rlookup (rinsert m k v) k'' = rlookup m k'' := by
  induction m with
  | nil =>
    show rlookup [(k, v)] k'' = none
    rw [rlookup_cons, if_neg (fun hk => h hk.symm)]
    rfl
  | cons p m ih =>
    obtain ⟨k', v'⟩ := p
    rw [rinsert_cons]
    by_cases hk : k' = k
    · subst hk
      rw [if_pos rfl, rlookup_cons, rlookup_cons,
        if_neg (fun hkk => h hkk.symm), if_neg (fun hkk => h hkk.symm)]
    · rw [if_neg hk, rlookup_cons, rlookup_cons, ih]

theorem mem_of_rlookup {m : RMap} {k : String} {v : ResultEntry}
    (h : rlookup m k = some v) : (k, v) ∈ m := by
  induction m with
  | nil => exact absurd h (by simp [rlookup])
  | cons p m ih =>
    obtain ⟨k', v'⟩ := p
    rw [rlookup_cons] at h
    by_cases hk : k' = k
    · rw [if_pos hk] at h
      obtain rfl : v' = v := by injection h
      subst hk
      exact List.mem_cons_self _ _
    · rw [if_neg hk] at h
      exact List.mem_cons_of_mem _ (ih h)

theorem mem_rinsert {m : RMap} {k : String} {v : ResultEntry}
    {q : String × ResultEntry} (h : q ∈ rinsert m k v) :
    q ∈ m ∨ q = (k, v) := by
  induction m with
  | nil => simpa [rinsert] using (by simpa [rinsert] using h : q = (k, v))
  | cons p m ih =>
    obtain ⟨k', v'⟩ := p
    rw [rinsert_cons] at h
    by_cases hk : k' = k
    · rw [if_pos hk] at h
      rcases List.mem_cons.mp h with h | h
      · exact Or.inr h
      · exact Or.inl (List.mem_cons_of_mem _ h)
    · rw [if_neg hk] at h
      rcases List.mem_cons.mp h with h | h
      · exact Or.inl (h ▸ List.mem_cons_self _ _)
      · rcases ih h with h' | h'
        · exact Or.inl (List.mem_cons_of_mem _ h')
        · exact Or.inr h'

theorem keysNodup_rinsert {m : RMap} (k : String) (v : ResultEntry)
    (hnd : KeysNodup m) : KeysNodup (rinsert m k v) := by
  induction m with
  | nil => simp [rinsert, KeysNodup]
  | cons p m ih =>
    obtain ⟨k', v'⟩ := p
    obtain ⟨hhead, htail⟩ := List.pairwise_cons.mp hnd
    unfold KeysNodup
    rw [rinsert_cons]
    by_cases hk : k' = k
    · subst hk
      rw [if_pos rfl]
      exact List.pairwise_cons.mpr ⟨fun q hq => hhead q hq, htail⟩
    · rw [if_neg hk]
      refine List.pairwise_cons.mpr ⟨fun q hq => ?_, ih htail⟩
      rcases mem_rinsert hq with h' | h'
      · exact hhead q h'
      · rw [h']
        exact hk

theorem keysMatch_rinsert {m : RMap} {k : String} {v : ResultEntry}
    (hkm : KeysMatch m) (hk : k = keyOf v) : KeysMatch (rinsert m k v) := by
  intro p hp
  rcases mem_rinsert hp with h | h
  · exact hkm p h
  · rw [h]
    exact hk

theorem rlookup_of_mem {m : RMap} {k : String} {v : ResultEntry}
    (hnd : KeysNodup m) (h : (k, v) ∈ m) : rlookup m k = some v := by
  induction m with
  | nil => simp at h
  | cons p m ih =>
    obtain ⟨k', v'⟩ := p
    obtain ⟨hhead, htail⟩ := List.pairwise_cons.mp hnd
    rcases List.mem_cons.mp h with heq | hmem
    · obtain ⟨h1, h2⟩ := Prod.mk.injEq .. ▸ heq
      rw [rlookup_cons, if_pos h1.symm, h2]
    · have hk : k' ≠ k := hhead (k, v) hmem
      rw [rlookup_cons, if_neg hk]
      exact ih htail hmem

theorem values_pairwise {m : RMap} (hnd : KeysNodup m) (hkm : KeysMatch m) :
    (m.map Prod.snd).Pairwise (fun a b => keyOf a ≠ keyOf b) := by
  rw [List.pairwise_map]
  refine hnd.imp_of_mem ?_
  intro p q hp hq h
  rw [← hkm p hp, ← hkm q hq]
  exact h

/-! ## Lemmas about max-score fusion -/

theorem keysNodup_mergeStep {m : RMap} (r : ResultEntry) (hnd : KeysNodup m) :
    KeysNodup (mergeStep m r) := by
  unfold mergeStep
  cases rlookup m (keyOf r) with
  | none => exact keysNodup_rinsert _ _ hnd
  | some e =>
    by_cases h : Score.lt e.score r.score
    · simpa [h] using keysNodup_rinsert (keyOf r) r hnd
    · simpa [h] using hnd

theorem keysMatch_mergeStep {m : RMap} (r : ResultEntry) (hkm : KeysMatch m) :
    KeysMatch (mergeStep m r) := by
  unfold mergeStep
  cases rlookup m (keyOf r) with
  | none => exact keysMatch_rinsert hkm rfl
  | some e =>
    by_cases h : Score.lt e.score r.score
    · simpa [h] using keysMatch_rinsert hkm rfl
    · simpa [h] using hkm

theorem mergeStep_lookup_ne {m : RMap} {r : ResultEntry} {k : String}
    (h : k ≠ keyOf r) : rlookup (mergeStep m r) k = rlookup m k := by
  unfold mergeStep
  cases rlookup m (keyOf r) with
  | none => exact rlookup_rinsert_ne m r h
  | some e =>
    by_cases hlt : Score.lt e.score r.score
    · simpa [hlt] using rlookup_rinsert_ne m r h
    · simp [hlt]

theorem mergeStep_lookup_self (m : RMap) (r : ResultEntry) :
    ∃ w, rlookup (mergeStep m r) (keyOf r) = some w ∧
      (w = r ∨ rlookup m (keyOf r) = some w) ∧
      Score.le r.score w.score ∧
      (∀ e, rlookup m (keyOf r) = some e → Score.le e.score w.score) := by
  unfold mergeStep
  cases he : rlookup m (keyOf r) with
  | none =>
    refine ⟨r, rlookup_rinsert_self .., Or.inl rfl, Score.le_refl r.score, ?_⟩
    intro e h
    simp at h
  | some e =>
    by_cases hlt : Score.lt e.score r.score
    · refine ⟨r, by simpa [hlt] using rlookup_rinsert_self m (keyOf r) r,
        Or.inl rfl, Score.le_refl r.score, ?_⟩
      intro e' h'
      obtain rfl : e = e' := by injection h'
      exact Score.le_of_lt hlt
    · refine ⟨e, by simpa [hlt] using he, Or.inr rfl, Score.le_of_not_lt hlt, ?_⟩
      intro e' h'
      obtain rfl : e = e' := by injection h'
      exact Score.le_refl e.score

theorem keysNodup_mergeMax {l : List ResultEntry} :
    ∀ {m : RMap}, KeysNodup m → KeysNodup (mergeMax m l) := by
  induction l with
  | nil => exact fun h => h
  | cons r l ih =>
    intro m hnd
    exact ih (keysNodup_mergeStep r hnd)

theorem keysMatch_mergeMax {l : List ResultEntry} :
    ∀ {m : RMap}, KeysMatch m → KeysMatch (mergeMax m l) := by
  induction l with
  | nil => exact fun h => h
  | cons r l ih =>
    intro m hkm
    exact ih (keysMatch_mergeStep r hkm)

/-- The fused entry at any key is one of the contributions for that key
and dominates every contribution for that key: the map keeps the maximum
score seen. -/
theorem mergeMax_lookup {l : List ResultEntry} :
    ∀ {m : RMap} {k : String} {v : ResultEntry},
    rlookup (mergeMax m l) k = some v →
    (rlookup m k = some v ∨ (v ∈ l ∧ keyOf v = k)) ∧
    (∀ e, rlookup m k = some e → Score.le e.score v.score) ∧
    (∀ c ∈ l, keyOf c = k → Score.le c.score v.score) := by
  induction l with
  | nil =>
    intro m k v h
    have h' : rlookup m k = some v := h
    refine ⟨Or.inl h', ?_, ?_⟩
    · intro e he
      obtain rfl : v = e := by rw [h'] at he; injection he
      exact Score.le_refl v.score
    · intro c hc
      simp at hc
  | cons r l ih =>
    intro m k v h
    obtain ⟨hA, hB, hC⟩ := @ih (mergeStep m r) k v h
    by_cases hk : k = keyOf r
    · subst hk
      obtain ⟨w, hw, hworig, hrw, hwmax⟩ := mergeStep_lookup_self m r
      have hwv : Score.le w.score v.score := hB w hw
      refine ⟨?_, ?_, ?_⟩
      · rcases hA with hA | hA
        · obtain rfl : w = v := by rw [hw] at hA; injection hA
          rcases hworig with h' | h'
          · exact Or.inr ⟨h' ▸ List.mem_cons_self _ _, h' ▸ rfl⟩
          · exact Or.inl h'
        · exact Or.inr ⟨List.mem_cons_of_mem _ hA.1, hA.2⟩
      · intro e he
        exact Score.le_trans (hwmax e he) hwv
      · intro c hc hck
        rcases List.mem_cons.mp hc with rfl | hc'
        · exact Score.le_trans hrw hwv
        · exact hC c hc' hck
    · have hne : rlookup (mergeStep m r) k = rlookup m k :=
        mergeStep_lookup_ne hk
      refine ⟨?_, ?_, ?_⟩
      · rcases hA with hA | hA
        · exact Or.inl (hne ▸ hA)
        · exact Or.inr ⟨List.mem_cons_of_mem _ hA.1, hA.2⟩
      · intro e he
        exact hB e (hne ▸ he)
      · intro c hc hck
        rcases List.mem_cons.mp hc with rfl | hc'
        · exact absurd hck.symm hk
        · exact hC c hc' hck

/-- A stored value of a well-formed map is found under its own key. -/
theorem rlookup_keyOf_of_mem_values {m : RMap} {v : ResultEntry}
    (hnd : KeysNodup m) (hkm : KeysMatch m) (h : v ∈ m.map Prod.snd) :
    rlookup m (keyOf v) = some v := by
  obtain ⟨p, hp, hpv⟩ := List.mem_map.mp h
  have := hkm p hp
  obtain ⟨k, v'⟩ := p
  obtain rfl : v' = v := hpv
  rw [← this]
  exact rlookup_of_mem hnd hp

/-! ## Invariants of the fuzzy tier -/

/-- Well-formedness of a Fuse-instance map: every item is tagged with its
own collection.  `buildSearchIndex` establishes this. -/
def WellFormedMap (fm : List (String × List Item)) : Prop :=
  ∀ p ∈ fm, ∀ it ∈ p.2, it.type = p.1

/-- The collection names of a Fuse-instance map are pairwise distinct and
hyphen-free (true of the eight fixed store names). -/
def StoreNamesOk (fm : List (String × List Item)) : Prop :=
  fm.Pairwise (fun p p' => p.1 ≠ p'.1) ∧ ∀ p ∈ fm, '-' ∉ p.1.data

/-- Record ids are unique within each collection (the Record Store
invariant of the data model). -/
def NodupIds (fm : List (String × List Item)) : Prop :=
  ∀ p ∈ fm, (p.2.map Item.id).Nodup

instance (fm : List (String × List Item)) : Decidable (WellFormedMap fm) := by
  unfold WellFormedMap; exact inferInstance

instance (fm : List (String × List Item)) : Decidable (StoreNamesOk fm) := by
  unfold StoreNamesOk; exact inferInstance

instance (fm : List (String × List Item)) : Decidable (NodupIds fm) := by
  unfold NodupIds; exact inferInstance

theorem mem_fuseList {cfg : SearchConfig} {q : String} {items : List Item}
    {lim : Nat} {c : Item × Score × List String}
    (h : c ∈ fuseList cfg q items lim) : c.1 ∈ items := by
  have h1 : c ∈ items.filterMap
      (fun it => (cfg.fuseMatch q it).map (fun p => (it, p))) :=
    List.mem_of_mem_take h
  obtain ⟨it, hit, heq⟩ := List.mem_filterMap.mp h1
  cases hm : cfg.fuseMatch q it with
  | none => rw [hm] at heq; simp at heq
  | some p =>
    rw [hm] at heq
    simp at heq
    rw [← heq]
    exact hit

theorem fuzzyStep_eq (q : String) (th : Score) (mt : String) (m : RMap)
    (c : Item × Score × List String) :
    fuzzyStep q th mt m c =
      if th.le (Score.sub Score.one c.2.1) ∧
          oldLt m (mt ++ "-" ++ c.1.id) (Score.sub Score.one c.2.1) = true then
        rinsert m (mt ++ "-" ++ c.1.id) (mkFuzzyEntry q c)
      else m := rfl

theorem keysNodup_fuzzyStep {q : String} {th : Score} {mt : String} {m : RMap}
    (c : Item × Score × List String) (hnd : KeysNodup m) :
    KeysNodup (fuzzyStep q th mt m c) := by
  rw [fuzzyStep_eq]
  split
  · exact keysNodup_rinsert _ _ hnd
  · exact hnd

theorem keysMatch_fuzzyStep {q : String} {th : Score} {mt : String} {m : RMap}
    {c : Item × Score × List String} (hty : c.1.type = mt)
    (hkm : KeysMatch m) : KeysMatch (fuzzyStep q th mt m c) := by
  rw [fuzzyStep_eq]
  split
  · refine keysMatch_rinsert hkm ?_
    show mt ++ "-" ++ c.1.id = keyOf (mkFuzzyEntry q c)
    unfold keyOf mkFuzzyEntry
    rw [hty]
  · exact hkm

theorem keysNodup_fuzzyFold (q : String) (th : Score) (mt : String) :
    ∀ (cs : List (Item × Score × List String)) (m : RMap), KeysNodup m →
      KeysNodup (cs.foldl (fuzzyStep q th mt) m)
  | [], _, hnd => hnd
  | c :: cs, m, hnd =>
    keysNodup_fuzzyFold q th mt cs _ (keysNodup_fuzzyStep c hnd)

theorem keysMatch_fuzzyFold (q : String) (th : Score) (mt : String) :
    ∀ (cs : List (Item × Score × List String)) (m : RMap),
      (∀ c ∈ cs, c.1.type = mt) → KeysMatch m →
      KeysMatch (cs.foldl (fuzzyStep q th mt) m)
  | [], _, _, hkm => hkm
  | c :: cs, m, hty, hkm =>
    keysMatch_fuzzyFold q th mt cs _
      (fun d hd => hty d (List.mem_cons_of_mem _ hd))
      (keysMatch_fuzzyStep (hty c (List.mem_cons_self _ _)) hkm)

theorem keysNodup_fuzzyTier (cfg : SearchConfig)
    (fm : List (String × List Item)) (q : String) (opts : SOptions) :
    KeysNodup (fuzzyTier cfg fm q opts) := by
  unfold fuzzyTier
  have base : KeysNodup ([] : RMap) := List.Pairwise.nil
  generalize ([] : RMap) = m at base ⊢
  induction fm generalizing m with
  | nil => exact base
  | cons p fm ih =>
    simp only [List.foldl_cons]
    split
    · exact ih _ (keysNodup_fuzzyFold q opts.threshold p.1 _ _ base)
    · exact ih _ base

theorem keysMatch_fuzzyTier {cfg : SearchConfig}
    {fm : List (String × List Item)} (q : String) (opts : SOptions)
    (hwf : WellFormedMap fm) : KeysMatch (fuzzyTier cfg fm q opts) := by
  unfold fuzzyTier
  have base : KeysMatch ([] : RMap) := fun p hp => absurd hp (List.not_mem_nil p)
  generalize ([] : RMap) = m at base ⊢
  induction fm generalizing m with
  | nil => exact base
  | cons p fm ih =>
    simp only [List.foldl_cons]
    have hwf' : WellFormedMap fm :=
      fun p' hp' => hwf p' (List.mem_cons_of_mem _ hp')
    split
    · refine ih hwf' _ (keysMatch_fuzzyFold q opts.threshold p.1 _ _ ?_ base)
      intro c hc
      exact hwf p (List.mem_cons_self _ _) c.1 (mem_fuseList hc)
    · exact ih hwf' _ base

/-- Lower bound invariant behind the corrected fuzzy-threshold claim:
every fuzzy-tier entry scores at least `0.8 * threshold`. -/
def ScoreLB (th : Score) (m : RMap) : Prop :=
  ∀ p ∈ m, Score.le (Score.mul th c08) p.2.score

theorem scoreLB_fuzzyStep {q : String} {th : Score} {mt : String} {m : RMap}
    (c : Item × Score × List String) (hlb : ScoreLB th m) :
    ScoreLB th (fuzzyStep q th mt m c) := by
  rw [fuzzyStep_eq]
  split
  · next hguard =>
    intro p hp
    rcases mem_rinsert hp with h | h
    · exact hlb p h
    · rw [h]
      show Score.le (Score.mul th c08) (mkFuzzyEntry q c).score
      unfold mkFuzzyEntry
      exact Score.mul_le_mul_right c08 (by decide) hguard.1
  · exact hlb

theorem scoreLB_fuzzyFold (q : String) (th : Score) (mt : String) :
    ∀ (cs : List (Item × Score × List String)) (m : RMap), ScoreLB th m →
      ScoreLB th (cs.foldl (fuzzyStep q th mt) m)
  | [], _, hlb => hlb
  | c :: cs, m, hlb =>
    scoreLB_fuzzyFold q th mt cs _ (scoreLB_fuzzyStep c hlb)

theorem scoreLB_fuzzyTier (cfg : SearchConfig) (fm : List (String × List Item))
    (q : String) (opts : SOptions) :
    ScoreLB opts.threshold (fuzzyTier cfg fm q opts) := by
  unfold fuzzyTier
  have base : ScoreLB opts.threshold ([] : RMap) :=
    fun p hp => absurd hp (List.not_mem_nil p)
  generalize ([] : RMap) = m at base ⊢
  induction fm generalizing m with
  | nil => exact base
  | cons p fm ih =>
    simp only [List.foldl_cons]
    split
    · exact ih _ (scoreLB_fuzzyFold q opts.threshold p.1 _ _ base)
    · exact ih _ base

/-! ## Explicit form of the fuzzy tier -/

theorem strExt {a b : String} (h : a.data = b.data) : a = b := by
  cases a; cases b; exact congrArg String.mk h

theorem key_data (s i : String) :
    (s ++ "-" ++ i).data = s.data ++ '-' :: i.data := by
  have hd : ("-" : String).data = ['-'] := rfl
  simp [String.data_append, hd]

theorem append_sep_inj {sep : Char} :
    ∀ (l1 l2 r1 r2 : List Char), sep ∉ l1 → sep ∉ l2 →
      l1 ++ sep :: r1 = l2 ++ sep :: r2 → l1 = l2 ∧ r1 = r2
  | [], [], r1, r2, _, _, h => ⟨rfl, by simpa using h⟩
  | [], b :: l2, r1, r2, _, h2, h => by
    simp only [List.nil_append, List.cons_append, List.cons.injEq] at h
    exact absurd (h.1 ▸ List.mem_cons_self b l2) (by
      rw [← h.1] at h2
      exact fun hmem => h2 (h.1 ▸ hmem))
  | a :: l1, [], r1, r2, h1, _, h => by
    simp only [List.nil_append, List.cons_append, List.cons.injEq] at h
    exact absurd (h.1 ▸ List.mem_cons_self a l1) (by
      intro hmem
      exact h1 (h.1 ▸ List.mem_cons_self a l1))
  | a :: l1, b :: l2, r1, r2, h1, h2, h => by
    simp only [List.cons_append, List.cons.injEq] at h
    obtain ⟨rfl, h'⟩ := h
    obtain ⟨hl, hr⟩ := append_sep_inj l1 l2 r1 r2
      (fun hm => h1 (List.mem_cons_of_mem _ hm))
      (fun hm => h2 (List.mem_cons_of_mem _ hm)) h'
    exact ⟨by rw [hl], hr⟩

theorem key_ne_of_name_ne {s1 s2 : String} (i1 i2 : String)
    (h1 : '-' ∉ s1.data) (h2 : '-' ∉ s2.data) (hne : s1 ≠ s2) :
    s1 ++ "-" ++ i1 ≠ s2 ++ "-" ++ i2 := by
  intro h
  have hd := congrArg String.data h
  rw [key_data, key_data] at hd
  exact hne (strExt (append_sep_inj _ _ _ _ h1 h2 hd).1)

theorem key_ne_of_id_ne {s i1 i2 : String} (hne : i1 ≠ i2) :
    s ++ "-" ++ i1 ≠ s ++ "-" ++ i2 := by
  intro h
  have hd := congrArg String.data h
  rw [key_data, key_data] at hd
  have := List.append_cancel_left hd
  exact hne (strExt (by injection this))

theorem rinsert_of_lookup_none :
    ∀ {m : RMap} {k : String} (v : ResultEntry), rlookup m k = none →
      rinsert m k v = m ++ [(k, v)]
  | [], k, v, _ => rfl
  | (k', v') :: m, k, v, h => by
    rw [rlookup_cons] at h
    by_cases hk : k' = k
    · rw [if_pos hk] at h
      exact absurd h (by simp)
    · rw [if_neg hk] at h
      rw [rinsert_cons, if_neg hk, List.cons_append,
        rinsert_of_lookup_none v h]

theorem rlookup_none_of_forall :
    ∀ {m : RMap} {k : String}, (∀ pr ∈ m, pr.1 ≠ k) → rlookup m k = none
  | [], _, _ => rfl
  | (k', v') :: m, k, h => by
    rw [rlookup_cons, if_neg (h (k', v') (List.mem_cons_self _ _)),
      rlookup_none_of_forall (fun pr hpr => h pr (List.mem_cons_of_mem _ hpr))]

theorem rlookup_append_none :
    ∀ {m1 m2 : RMap} {k : String}, rlookup m1 k = none → rlookup m2 k = none →
      rlookup (m1 ++ m2) k = none
  | [], m2, k, _, h2 => h2
  | (k', v') :: m1, m2, k, h1, h2 => by
    rw [rlookup_cons] at h1
    by_cases hk : k' = k
    · rw [if_pos hk] at h1
      exact absurd h1 (by simp)
    · rw [if_neg hk] at h1
      rw [List.cons_append, rlookup_cons, if_neg hk,
        rlookup_append_none h1 h2]

/-- The keyed fuzzy candidates of one collection: pairs of dedup key and
kept entry, in library order. -/
def collKeyed (cfg : SearchConfig) (q : String) (opts : SOptions)
    (mt : String) (items : List Item) : RMap :=
  (fuseList cfg q items opts.limit).filterMap (fun c =>
    if Score.le opts.threshold (Score.sub Score.one c.2.1) then
      some (mt ++ "-" ++ c.1.id, mkFuzzyEntry q c)
    else none)

/-- The keyed fuzzy candidates of all allowed collections. -/
def fuzzyKeyed (cfg : SearchConfig) (fm : List (String × List Item))
    (q : String) (opts : SOptions) : RMap :=
  fm.flatMap (fun p =>
    if allowedModule opts.modules p.1 then collKeyed cfg q opts p.1 p.2
    else [])

theorem mem_collKeyed {cfg : SearchConfig} {q : String} {opts : SOptions}
    {mt : String} {items : List Item} {pr : String × ResultEntry}
    (h : pr ∈ collKeyed cfg q opts mt items) :
    ∃ c ∈ fuseList cfg q items opts.limit, pr.1 = mt ++ "-" ++ c.1.id := by
  obtain ⟨c, hc, heq⟩ := List.mem_filterMap.mp h
  by_cases hth : Score.le opts.threshold (Score.sub Score.one c.2.1)
  · rw [if_pos hth] at heq
    obtain rfl : (mt ++ "-" ++ c.1.id, mkFuzzyEntry q c) = pr := by injection heq
    exact ⟨c, hc, rfl⟩
  · rw [if_neg hth] at heq
    exact absurd heq (by simp)

/-- The fuzzy fold over one collection, in closed form: with fresh and
pairwise distinct candidate ids, it appends exactly the candidates whose
unscaled similarity passes the threshold. -/
theorem fuzzyFold_explicit (q : String) (th : Score) (mt : String) :
    ∀ (cs : List (Item × Score × List String)) (m : RMap),
    (∀ c ∈ cs, rlookup m (mt ++ "-" ++ c.1.id) = none) →
    cs.Pairwise (fun c d => c.1.id ≠ d.1.id) →
    cs.foldl (fuzzyStep q th mt) m =
      m ++ cs.filterMap (fun c =>
        if Score.le th (Score.sub Score.one c.2.1) then
          some (mt ++ "-" ++ c.1.id, mkFuzzyEntry q c)
        else none)
  | [], m, _, _ => by simp
  | c :: cs, m, hfresh, hpw => by
    obtain ⟨hhead, htail⟩ := List.pairwise_cons.mp hpw
    have hlook : rlookup m (mt ++ "-" ++ c.1.id) = none :=
      hfresh c (List.mem_cons_self _ _)
    have holdlt : oldLt m (mt ++ "-" ++ c.1.id) (Score.sub Score.one c.2.1)
        = true := by
      unfold oldLt
      rw [hlook]
    rw [List.foldl_cons, fuzzyStep_eq]
    by_cases hth : Score.le th (Score.sub Score.one c.2.1)
    · rw [if_pos ⟨hth, holdlt⟩, rinsert_of_lookup_none _ hlook]
      rw [fuzzyFold_explicit q th mt cs (m ++ [(mt ++ "-" ++ c.1.id,
        mkFuzzyEntry q c)]) ?_ htail]
      · simp [List.filterMap_cons, hth, List.append_assoc]
      · intro d hd
        refine rlookup_append_none (hfresh d (List.mem_cons_of_mem _ hd)) ?_
        refine rlookup_none_of_forall ?_
        intro pr hpr
        obtain rfl : pr = (mt ++ "-" ++ c.1.id, mkFuzzyEntry q c) := by
          simpa using hpr
        exact key_ne_of_id_ne (hhead d hd)
    · rw [if_neg (fun hg => hth hg.1)]
      rw [fuzzyFold_explicit q th mt cs m
        (fun d hd => hfresh d (List.mem_cons_of_mem _ hd)) htail]
      simp [List.filterMap_cons, hth]

theorem fuseList_ids_sublist (cfg : SearchConfig) (q : String)
    (items : List Item) (lim : Nat) :
    List.Sublist ((fuseList cfg q items lim).map (fun c => c.1.id))
      (items.map Item.id) := by
  have h2 : ∀ its : List Item, List.Sublist
      ((its.filterMap (fun it => (cfg.fuseMatch q it).map
        (fun p => (it, p)))).map (fun c => c.1.id))
      (its.map Item.id) := by
    intro its
    induction its with
    | nil => simp
    | cons it rest ih =>
      rw [List.filterMap_cons]
      cases hm : cfg.fuseMatch q it with
      | none =>
        rw [List.map_cons]
        exact ih.trans (List.sublist_cons_self _ _)
      | some p =>
        simp only [Option.map_some, List.map_cons]
        exact ih.cons₂ _
  exact (((List.take_sublist lim _).map _)).trans (h2 items)

/-- The whole fuzzy tier in closed form. -/
theorem fuzzyTier_explicit_fold (cfg : SearchConfig) (q : String)
    (opts : SOptions) :
    ∀ (fm : List (String × List Item)) (m : RMap),
    (∀ p ∈ fm, '-' ∉ p.1.data) →
    fm.Pairwise (fun p p' => p.1 ≠ p'.1) →
    (∀ p ∈ fm, (p.2.map Item.id).Nodup) →
    (∀ p ∈ fm, ∀ c ∈ fuseList cfg q p.2 opts.limit,
      rlookup m (p.1 ++ "-" ++ c.1.id) = none) →
    fm.foldl (fun m p =>
      if allowedModule opts.modules p.1 then fuzzyCollection cfg q opts p.1 p.2 m
      else m) m = m ++ fuzzyKeyed cfg fm q opts
  | [], m, _, _, _, _ => by simp [fuzzyKeyed]
  | p :: fm, m, hhyp, hpw, hids, hfresh => by
    obtain ⟨hphead, hptail⟩ := List.pairwise_cons.mp hpw
    have hhyp' : ∀ p' ∈ fm, '-' ∉ p'.1.data :=
      fun p' hp' => hhyp p' (List.mem_cons_of_mem _ hp')
    have hids' : ∀ p' ∈ fm, (p'.2.map Item.id).Nodup :=
      fun p' hp' => hids p' (List.mem_cons_of_mem _ hp')
    have hcsids : (fuseList cfg q p.2 opts.limit).Pairwise
        (fun c d => c.1.id ≠ d.1.id) := by
      have hnd : ((fuseList cfg q p.2 opts.limit).map (fun c => c.1.id)).Nodup :=
        (hids p (List.mem_cons_self _ _)).sublist
          (fuseList_ids_sublist cfg q p.2 opts.limit)
      exact List.pairwise_map.mp hnd
    rw [List.foldl_cons]
    by_cases hall : allowedModule opts.modules p.1 = true
    · rw [if_pos hall]
      have hstep : fuzzyCollection cfg q opts p.1 p.2 m =
          m ++ collKeyed cfg q opts p.1 p.2 :=
        fuzzyFold_explicit q opts.threshold p.1 _ m
          (hfresh p (List.mem_cons_self _ _)) hcsids
      rw [hstep]
      rw [fuzzyTier_explicit_fold cfg q opts fm _ hhyp' hptail hids' ?_]
      · show m ++ collKeyed cfg q opts p.1 p.2 ++ fuzzyKeyed cfg fm q opts =
          m ++ fuzzyKeyed cfg (p :: fm) q opts
        unfold fuzzyKeyed
        rw [List.flatMap_cons, if_pos hall, List.append_assoc]
      · intro p' hp' c hc
        refine rlookup_append_none (hfresh p' (List.mem_cons_of_mem _ hp') c hc)
          (rlookup_none_of_forall ?_)
        intro pr hpr
        obtain ⟨d, _, hprk⟩ := mem_collKeyed hpr
        rw [hprk]
        exact key_ne_of_name_ne _ _ (hhyp p (List.mem_cons_self _ _))
          (hhyp' p' hp') (hphead p' hp')
    · rw [if_neg hall]
      rw [fuzzyTier_explicit_fold cfg q opts fm m hhyp' hptail hids'
        (fun p' hp' => hfresh p' (List.mem_cons_of_mem _ hp'))]
      show m ++ fuzzyKeyed cfg fm q opts = m ++ fuzzyKeyed cfg (p :: fm) q opts
      unfold fuzzyKeyed
      rw [List.flatMap_cons, if_neg hall, List.nil_append]

/-- The fuzzy tier equals its keyed candidate list. -/
theorem fuzzyTier_explicit {cfg : SearchConfig} {fm : List (String × List Item)}
    (q : String) (opts : SOptions) (hnames : StoreNamesOk fm)
    (hids : NodupIds fm) :
    fuzzyTier cfg fm q opts = fuzzyKeyed cfg fm q opts := by
  unfold fuzzyTier
  rw [fuzzyTier_explicit_fold cfg q opts fm [] (fun p hp => hnames.2 p hp)
    hnames.1 hids (fun p _ c _ => rfl)]
  rfl

theorem collKeyed_values (cfg : SearchConfig) (q : String) (opts : SOptions)
    (mt : String) (items : List Item) :
    (collKeyed cfg q opts mt items).map Prod.snd =
      collCandidates cfg q opts items := by
  unfold collKeyed collCandidates
  generalize fuseList cfg q items opts.limit = cs
  induction cs with
  | nil => rfl
  | cons c cs ih =>
    by_cases hth : Score.le opts.threshold (Score.sub Score.one c.2.1)
    · simp [List.filterMap_cons, hth, ih]
    · simp [List.filterMap_cons, hth, ih]

theorem fuzzyKeyed_values (cfg : SearchConfig) (fm : List (String × List Item))
    (q : String) (opts : SOptions) :
    (fuzzyKeyed cfg fm q opts).map Prod.snd = fuzzyCandidates cfg fm q opts := by
  unfold fuzzyKeyed fuzzyCandidates
  induction fm with
  | nil => rfl
  | cons p fm ih =>
    rw [List.flatMap_cons, List.flatMap_cons, List.map_append, ih]
    by_cases hall : allowedModule opts.modules p.1 = true
    · rw [if_pos hall, if_pos hall, collKeyed_values]
    · rw [if_neg hall, if_neg hall]
      rfl

/-! ## Values of the fused map -/

theorem mem_values_rinsert {m : RMap} {k : String} {w v : ResultEntry}
    (h : v ∈ (rinsert m k w).map Prod.snd) : v ∈ m.map Prod.snd ∨ v = w := by
  obtain ⟨pr, hpr, hv⟩ := List.mem_map.mp h
  rcases mem_rinsert hpr with h' | h'
  · exact Or.inl (hv ▸ List.mem_map_of_mem Prod.snd h')
  · right
    rw [← hv, h']

theorem mem_values_mergeStep {m : RMap} {r v : ResultEntry}
    (h : v ∈ (mergeStep m r).map Prod.snd) : v ∈ m.map Prod.snd ∨ v = r := by
  unfold mergeStep at h
  split at h
  · exact mem_values_rinsert h
  · split at h
    · exact mem_values_rinsert h
    · exact Or.inl h

theorem mem_values_mergeMax :
    ∀ {l : List ResultEntry} {m : RMap} {v : ResultEntry},
      v ∈ (mergeMax m l).map Prod.snd → v ∈ m.map Prod.snd ∨ v ∈ l
  | [], _, _, h => Or.inl h
  | r :: l, m, v, h => by
    rcases @mem_values_mergeMax l (mergeStep m r) v h with h' | h'
    · rcases mem_values_mergeStep h' with h'' | h''
      · exact Or.inl h''
      · exact Or.inr (h'' ▸ List.mem_cons_self _ _)
    · exact Or.inr (List.mem_cons_of_mem _ h')

/-- A predicate holding of every stored value. -/
def ValuesP (P : ResultEntry → Prop) (m : RMap) : Prop := ∀ p ∈ m, P p.2

theorem valuesP_fuzzyStep {P : ResultEntry → Prop} {q : String} {th : Score}
    {mt : String} {m : RMap} {c : Item × Score × List String}
    (hP : P (mkFuzzyEntry q c)) (h : ValuesP P m) :
    ValuesP P (fuzzyStep q th mt m c) := by
  rw [fuzzyStep_eq]
  split
  · intro p hp
    rcases mem_rinsert hp with h' | h'
    · exact h p h'
    · rw [h']
      exact hP
  · exact h

theorem valuesP_fuzzyFold {P : ResultEntry → Prop} {q : String} {th : Score}
    {mt : String} :
    ∀ (cs : List (Item × Score × List String)) (m : RMap),
      (∀ c ∈ cs, P (mkFuzzyEntry q c)) → ValuesP P m →
      ValuesP P (cs.foldl (fuzzyStep q th mt) m)
  | [], _, _, h => h
  | c :: cs, m, hP, h =>
    valuesP_fuzzyFold cs _ (fun d hd => hP d (List.mem_cons_of_mem _ hd))
      (valuesP_fuzzyStep (hP c (List.mem_cons_self _ _)) h)

theorem valuesP_fuzzyTier {P : ResultEntry → Prop} {cfg : SearchConfig}
    {fm : List (String × List Item)} {q : String} {opts : SOptions}
    (hP : ∀ p ∈ fm, ∀ c ∈ fuseList cfg q p.2 opts.limit,
      P (mkFuzzyEntry q c)) :
    ValuesP P (fuzzyTier cfg fm q opts) := by
  unfold fuzzyTier
  have base : ValuesP P ([] : RMap) := fun p hp => absurd hp (List.not_mem_nil p)
  generalize ([] : RMap) = m at base ⊢
  induction fm generalizing m with
  | nil => exact base
  | cons p fm ih =>
    simp only [List.foldl_cons]
    have hP' : ∀ p' ∈ fm, ∀ c ∈ fuseList cfg q p'.2 opts.limit,
        P (mkFuzzyEntry q c) :=
      fun p' hp' => hP p' (List.mem_cons_of_mem _ hp')
    split
    · exact ih hP' _ (valuesP_fuzzyFold _ _
        (hP p (List.mem_cons_self _ _)) base)
    · exact ih hP' _ base

theorem nlpResultsF_succ (cfg : SearchConfig) (fm : List (String × List Item))
    (fuel : Nat) (q : String) (opts : SOptions) :
    nlpResultsF cfg fm (fuel + 1) q opts =
      if (cfg.nlpParse q).searchTerms = [] then []
      else
        (searchFuel cfg fm fuel (joinSpace (cfg.nlpParse q).searchTerms)
          { modules := opts.modules, limit := 10 }).map scaleNlp := rfl

theorem mem_sortDesc {l : List ResultEntry} {r : ResultEntry}
    (h : r ∈ sortDesc l) : r ∈ l :=
  (List.perm_insertionSort byScoreDesc l).mem_iff.mp h

/-- Every result a `search` call returns is tagged with one of the
collections of the Fuse-instance map it ran against. -/
theorem searchFuel_types {cfg : SearchConfig} {fm : List (String × List Item)}
    (hwf : WellFormedMap fm) :
    ∀ (fuel : Nat) (q : String) (opts : SOptions),
      ∀ r ∈ searchFuel cfg fm fuel q opts, r.item.type ∈ fm.map Prod.fst := by
  have htier : ∀ (q : String) (opts : SOptions),
      ValuesP (fun v => v.item.type ∈ fm.map Prod.fst)
        (fuzzyTier cfg fm q opts) := by
    intro q opts
    refine valuesP_fuzzyTier ?_
    intro p hp c hc
    show (mkFuzzyEntry q c).item.type ∈ fm.map Prod.fst
    unfold mkFuzzyEntry
    simp only
    rw [hwf p hp c.1 (mem_fuseList hc)]
    exact List.mem_map_of_mem Prod.fst hp
  intro fuel
  induction fuel with
  | zero =>
    intro q opts r hr
    rw [searchFuel_eq] at hr
    have hv := mem_sortDesc (List.mem_of_mem_take hr)
    rcases mem_values_mergeMax hv with h | h
    · obtain ⟨pr, hpr, hprv⟩ := List.mem_map.mp h
      exact hprv ▸ htier q opts pr hpr
    · exact absurd h (List.not_mem_nil r)
  | succ fuel ih =>
    intro q opts r hr
    rw [searchFuel_eq] at hr
    have hv := mem_sortDesc (List.mem_of_mem_take hr)
    rcases mem_values_mergeMax hv with h | h
    · obtain ⟨pr, hpr, hprv⟩ := List.mem_map.mp h
      exact hprv ▸ htier q opts pr hpr
    · rw [nlpResultsF_succ] at h
      by_cases hterms : (cfg.nlpParse q).searchTerms = []
      · rw [if_pos hterms] at h
        exact absurd h (List.not_mem_nil r)
      · rw [if_neg hterms] at h
        obtain ⟨r', hr', hr'r⟩ := List.mem_map.mp h
        have := ih (joinSpace (cfg.nlpParse q).searchTerms)
          { modules := opts.modules, limit := 10 } r' hr'
        rw [← hr'r]
        exact this

theorem fuzzyTier_values {cfg : SearchConfig} {fm : List (String × List Item)}
    (q : String) (opts : SOptions) (hnames : StoreNamesOk fm)
    (hids : NodupIds fm) :
    (fuzzyTier cfg fm q opts).map Prod.snd = fuzzyCandidates cfg fm q opts := by
  rw [fuzzyTier_explicit q opts hnames hids, fuzzyKeyed_values]

/-- Claim C1, general form: `search` returns at most `limit` results, no
two returned results share the same (collection, id) pair, and every
returned result is one of the tiers' candidates and carries the maximum
score among all candidates for its (collection, id) pair. -/
theorem search_limit_dedup_maxscore (cfg : SearchConfig)
    (fm : List (String × List Item)) (fuel : Nat) (q : String) (opts : SOptions)
    (hwf : WellFormedMap fm) (hnames : StoreNamesOk fm) (hids : NodupIds fm) :
    (searchFuel cfg fm fuel q opts).length ≤ opts.limit ∧
    (searchFuel cfg fm fuel q opts).Pairwise
      (fun a b => ¬(a.item.type = b.item.type ∧ a.item.id = b.item.id)) ∧
    ∀ r ∈ searchFuel cfg fm fuel q opts,
      r ∈ searchContribs cfg fm fuel q opts ∧
      ∀ c ∈ searchContribs cfg fm fuel q opts,
        c.item.type = r.item.type → c.item.id = r.item.id →
        Score.le c.score r.score := by
  have hnd1 := keysNodup_fuzzyTier cfg fm q opts
  have hkm1 := @keysMatch_fuzzyTier cfg fm q opts hwf
  have hnd2 : KeysNodup (mergeMax (fuzzyTier cfg fm q opts)
      (nlpResultsF cfg fm fuel q opts)) := keysNodup_mergeMax hnd1
  have hkm2 : KeysMatch (mergeMax (fuzzyTier cfg fm q opts)
      (nlpResultsF cfg fm fuel q opts)) := keysMatch_mergeMax hkm1
  have hvals := @fuzzyTier_values cfg fm q opts hnames hids
  refine ⟨?_, ?_, ?_⟩
  · rw [searchFuel_eq, List.length_take]
    exact min_le_left _ _
  · rw [searchFuel_eq]
    have hp2 := values_pairwise hnd2 hkm2
    have hp3 : ((mergeMax (fuzzyTier cfg fm q opts)
        (nlpResultsF cfg fm fuel q opts)).map Prod.snd).Pairwise
        (fun a b => ¬(a.item.type = b.item.type ∧ a.item.id = b.item.id)) := by
      refine hp2.imp ?_
      intro a b hne hand
      apply hne
      unfold keyOf
      rw [hand.1, hand.2]
    have hsym : Symmetric (fun a b : ResultEntry =>
        ¬(a.item.type = b.item.type ∧ a.item.id = b.item.id)) := by
      intro a b h hand
      exact h ⟨hand.1.symm, hand.2.symm⟩
    have hp4 := ((List.perm_insertionSort byScoreDesc _).pairwise_iff
      @hsym).mpr hp3
    exact hp4.sublist (List.take_sublist _ _)
  · intro r hr
    rw [searchFuel_eq] at hr
    have hv : r ∈ (mergeMax (fuzzyTier cfg fm q opts)
        (nlpResultsF cfg fm fuel q opts)).map Prod.snd :=
      mem_sortDesc (List.mem_of_mem_take hr)
    have hlook := rlookup_keyOf_of_mem_values hnd2 hkm2 hv
    obtain ⟨hA, hB, hC⟩ := mergeMax_lookup hlook
    constructor
    · unfold searchContribs
      rcases hA with hA | hA
      · refine List.mem_append_left _ ?_
        rw [← hvals]
        exact List.mem_map_of_mem Prod.snd (mem_of_rlookup hA)
      · exact List.mem_append_right _ hA.1
    · intro c hc hty hid
      have hkey : keyOf c = keyOf r := by
        unfold keyOf
        rw [hty, hid]
      unfold searchContribs at hc
      rcases List.mem_append.mp hc with hc | hc
      · have hcv : c ∈ (fuzzyTier cfg fm q opts).map Prod.snd := by
          rw [hvals]
          exact hc
        have hlc := rlookup_keyOf_of_mem_values hnd1 hkm1 hcv
        rw [hkey] at hlc
        exact hB c hlc
      · exact hC c hc hkey

/-! ## Lemmas about index building -/

theorem mem_foldl_append (store : String → Except String (List Item)) :
    ∀ (ss : List String) (m : List (String × List Item))
      {pr : String × List Item},
      pr ∈ ss.foldl (fun m s => m ++ processStore store s) m →
      pr ∈ m ∨ ∃ s ∈ ss, pr ∈ processStore store s
  | [], m, pr, h => Or.inl h
  | s :: ss, m, pr, h => by
    rcases mem_foldl_append store ss _ h with h' | ⟨s', hs', hpr⟩
    · rcases List.mem_append.mp h' with h'' | h''
      · exact Or.inl h''
      · exact Or.inr ⟨s, List.mem_cons_self _ _, h''⟩
    · exact Or.inr ⟨s', List.mem_cons_of_mem _ hs', hpr⟩

theorem foldl_append_mono (store : String → Except String (List Item)) :
    ∀ (ss : List String) (m : List (String × List Item))
      {pr : String × List Item}, pr ∈ m →
      pr ∈ ss.foldl (fun m s => m ++ processStore store s) m
  | [], _, _, h => h
  | s :: ss, m, pr, h =>
    foldl_append_mono store ss _ (List.mem_append_left _ h)

theorem mem_foldl_append_of_ok (store : String → Except String (List Item)) :
    ∀ (ss : List String) (m : List (String × List Item)) {s : String}
      {items : List Item}, s ∈ ss → store s = Except.ok items →
      (s, items.map (processItem s)) ∈
        ss.foldl (fun m s => m ++ processStore store s) m
  | [], _, _, _, hs, _ => absurd hs (List.not_mem_nil _)
  | s' :: ss, m, s, items, hs, hok => by
    rcases List.mem_cons.mp hs with rfl | hs'
    · refine foldl_append_mono store ss _ (List.mem_append_right _ ?_)
      unfold processStore
      rw [hok]
      exact List.mem_cons_self _ _
    · exact mem_foldl_append_of_ok store ss _ hs' hok

theorem mem_processStore {store : String → Except String (List Item)}
    {s : String} {pr : String × List Item} (h : pr ∈ processStore store s) :
    ∃ items, store s = Except.ok items ∧ pr = (s, items.map (processItem s)) := by
  unfold processStore at h
  cases hs : store s with
  | ok items =>
    rw [hs] at h
    rcases List.mem_cons.mp h with h' | h'
    · exact ⟨items, rfl, h'⟩
    · exact absurd h' (List.not_mem_nil _)
  | error e =>
    rw [hs] at h
    exact absurd h (List.not_mem_nil _)

/-- A built index is well-formed: each processed item carries its
collection tag. -/
theorem buildSearchIndex_wellFormed (store : String → Except String (List Item)) :
    WellFormedMap (buildSearchIndex store) := by
  intro pr hpr it hit
  rcases mem_foldl_append store _ _ hpr with h | ⟨s, _, hps⟩
  · exact absurd h (List.not_mem_nil pr)
  · obtain ⟨items, _, rfl⟩ := mem_processStore hps
    obtain ⟨it0, _, rfl⟩ := List.mem_map.mp hit
    rfl

/-- A foldl over append-steps factors through the empty accumulator. -/
theorem foldl_append_factor (store : String → Except String (List Item)) :
    ∀ (ss : List String) (m : List (String × List Item)),
      ss.foldl (fun m s => m ++ processStore store s) m =
        m ++ ss.foldl (fun m s => m ++ processStore store s) []
  | [], m => by simp
  | s :: ss, m => by
    rw [List.foldl_cons, List.foldl_cons, foldl_append_factor store ss,
      foldl_append_factor store ss (([] : List (String × List Item)) ++
        processStore store s)]
    simp [List.append_assoc]

/-- The collection names of a built index form a subsequence of the
eight store names. -/
theorem fold_names_sublist (store : String → Except String (List Item)) :
    ∀ (ss : List String) (m : List (String × List Item)),
      List.Sublist ((ss.foldl (fun m s => m ++ processStore store s) m).map
        Prod.fst) (m.map Prod.fst ++ ss)
  | [], m => by simp
  | s :: ss, m => by
    have ih := fold_names_sublist store ss (m ++ processStore store s)
    rw [List.foldl_cons]
    refine ih.trans ?_
    rw [List.map_append]
    unfold processStore
    cases store s with
    | ok items =>
      simp only [List.map_cons, List.map_nil]
      rw [List.append_assoc]
      exact List.Sublist.refl _
    | error e =>
      simp only [List.map_nil, List.append_nil]
      exact List.Sublist.append_left (List.sublist_cons_self s ss) _

/-- `buildSearchIndex` output satisfies the store-name invariant of the
search theorems: names are pairwise distinct and hyphen-free. -/
theorem buildSearchIndex_storeNamesOk (store : String → Except String (List Item)) :
    StoreNamesOk (buildSearchIndex store) := by
  have hsub : List.Sublist ((buildSearchIndex store).map Prod.fst) stores := by
    have h := fold_names_sublist store (stores.take stores.length) []
    rw [List.take_length] at h
    simpa using h
  constructor
  · have hnd : ((buildSearchIndex store).map Prod.fst).Nodup :=
      List.Nodup.sublist hsub (by decide)
    exact List.pairwise_map.mp hnd
  · intro pr hpr
    have hmem : pr.1 ∈ stores := hsub.mem (List.mem_map_of_mem Prod.fst hpr)
    have hall : ∀ s ∈ stores, '-' ∉ s.data := by decide
    exact hall pr.1 hmem

/-- `buildSearchIndex` output satisfies the id-uniqueness invariant of
the search theorems whenever the Record Store does. -/
theorem buildSearchIndex_nodupIds (store : String → Except String (List Item))
    (h : ∀ s items, store s = Except.ok items → (items.map Item.id).Nodup) :
    NodupIds (buildSearchIndex store) := by
  intro pr hpr
  rcases mem_foldl_append store _ _ hpr with h' | ⟨s, _, hps⟩
  · exact absurd h' (List.not_mem_nil pr)
  · obtain ⟨items, hok, rfl⟩ := mem_processStore hps
    show ((items.map (processItem s)).map Item.id).Nodup
    rw [List.map_map]
    have hid : (fun it => (processItem s it).id) = Item.id := rfl
    show (items.map (Item.id ∘ processItem s)).Nodup
    have : (Item.id ∘ processItem s) = Item.id := rfl
    rw [this]
    exact h s items hok

/-! ## Lemmas about tag deduplication -/

/-- The `seen` set after inserting a list into the JS `Set`. -/
def seenAfter : List String → List String → List String
  | seen, [] => seen
  | seen, a :: rest => seenAfter (if a ∈ seen then seen else a :: seen) rest

theorem dedupGo_cons (seen : List String) (a : String) (l : List String) :
    dedupGo seen (a :: l) =
      if a ∈ seen then dedupGo seen l else a :: dedupGo (a :: seen) l := rfl

theorem seenAfter_cons (seen : List String) (a : String) (l : List String) :
    seenAfter seen (a :: l) =
      seenAfter (if a ∈ seen then seen else a :: seen) l := rfl

theorem dedupGo_append :
    ∀ (xs ys seen : List String),
      dedupGo seen (xs ++ ys) = dedupGo seen xs ++ dedupGo (seenAfter seen xs) ys
  | [], ys, seen => rfl
  | a :: xs, ys, seen => by
    rw [List.cons_append, dedupGo_cons, dedupGo_cons, seenAfter_cons]
    by_cases h : a ∈ seen
    · rw [if_pos h, if_pos h, if_pos h, dedupGo_append xs ys seen]
    · rw [if_neg h, if_neg h, if_neg h, dedupGo_append xs ys (a :: seen),
        List.cons_append]

theorem mem_dedupGo :
    ∀ {l seen : List String} {x : String}, x ∈ dedupGo seen l → x ∈ l
  | [], _, x, h => absurd h (List.not_mem_nil x)
  | a :: l, seen, x, h => by
    unfold dedupGo at h
    by_cases ha : a ∈ seen
    · rw [if_pos ha] at h
      exact List.mem_cons_of_mem _ (mem_dedupGo h)
    · rw [if_neg ha] at h
      rcases List.mem_cons.mp h with h' | h'
      · exact h' ▸ List.mem_cons_self _ _
      · exact List.mem_cons_of_mem _ (mem_dedupGo h')

/-! ## Lemmas about keyword tables -/

theorem mem_labelTable (table : List (String × List String)) (t label : String) :
    (label ∈ (table.filter (fun p => anyKeyword t p.2)).map Prod.fst) ↔
      ∃ kws, (label, kws) ∈ table ∧ anyKeyword t kws = true := by
  constructor
  · intro h
    obtain ⟨p, hp, hlab⟩ := List.mem_map.mp h
    obtain ⟨hmem, hP⟩ := List.mem_filter.mp hp
    refine ⟨p.2, ?_, hP⟩
    rw [← hlab]
    exact hmem
  · rintro ⟨kws, hmem, hP⟩
    exact List.mem_map.mpr ⟨(label, kws), List.mem_filter.mpr ⟨hmem, hP⟩, rfl⟩

/-! ## Concrete fixtures for witnesses and counterexamples -/

/-- A sample record. -/
def exItem : Item := { id := "r1", title := "Paris trip", type := "people" }

/-- A one-collection Fuse-instance map. -/
def exFm : List (String × List Item) := [("people", [exItem])]

/-- A configuration whose fuzzy oracle always matches perfectly
(distance 0) and whose parser extracts nothing. -/
def exCfg : SearchConfig :=
  { fuseMatch := fun _ _ => some (Score.ofFrac 0 1, [])
    nlpParse := fun _ => {} }

/-- A configuration whose fuzzy oracle reports match distance 0.65. -/
def exCfgC2 : SearchConfig :=
  { fuseMatch := fun _ _ => some (Score.ofFrac 13 20, [])
    nlpParse := fun _ => {} }

/-- The fuzzy-tier entry `exCfgC2` produces for `exItem`:
`_score = (1 - 0.65) * 0.8 = 0.28`. -/
def exEntryC2 : ResultEntry :=
  { item := exItem
    score := Score.ofFrac 28 100
    matchedFields := []
    snippet := "" }

/-- A record store where reading `people` throws and every other
collection holds one record. -/
def exStoreFail : String → Except String (List Item) :=
  fun s => if s = "people" then Except.error "boom" else Except.ok [{ id := "x1" }]

/-- A record store where every collection holds one record. -/
def exStoreOk : String → Except String (List Item) :=
  fun _ => Except.ok [{ id := "x1" }]

/-- A 160-character description containing the query word `word`. -/
def exItemC7 : Item := { id := "d1", description := "xxxxxxxxxxxxxxxxxxxxxxxxxxxxxxxxxxxxxxxxxxxxxxxxxxxxxxxxxxxxxxxxxxxxxxxxxxxxxxxxxxxxxxxxxxxxxxxxxxxxxxxxxxxxxxx word yyyyyyyyyyyyyyyyyyyyyyyyyyyyyyyyyyyyyyyyyyy" }

/-- Ten distinct qualifying nouns, one of which equals the supplied type
`journal`. -/
def exNounsC10 : List String :=
  ["journal", "alpha", "bravo", "carlo", "delta", "echoo", "foxtr", "golfy",
   "hotay", "india"]

/-- Ten distinct qualifying nouns, none equal to the type `zulu`. -/
def exNounsW : List String :=
  ["alpha", "bravo", "carlo", "delta", "echoo", "foxtr", "golfy", "hotay",
   "india", "kilo"]

theorem joinSpace_single (s : String) : joinSpace [s] = s := rfl

theorem generateSnippet_eq (it : Item) (q : String) :
    generateSnippet it q =
      jsTake 150 (jsTrim (bestSentence it q)) ++
        (if 150 < (bestSentence it q).length then "..." else "") := rfl

/-! ## The claims -/

/-- Claim C1 witness at a concrete configuration. -/
theorem search_limit_dedup_maxscore_witness :
    (WellFormedMap exFm ∧ StoreNamesOk exFm ∧ NodupIds exFm) ∧
    ((searchFuel exCfg exFm 1 "paris" ({} : SOptions)).length ≤
        ({} : SOptions).limit ∧
      (searchFuel exCfg exFm 1 "paris" ({} : SOptions)).Pairwise
        (fun a b => ¬(a.item.type = b.item.type ∧ a.item.id = b.item.id)) ∧
      ∀ r ∈ searchFuel exCfg exFm 1 "paris" ({} : SOptions),
        r ∈ searchContribs exCfg exFm 1 "paris" ({} : SOptions) ∧
        ∀ c ∈ searchContribs exCfg exFm 1 "paris" ({} : SOptions),
          c.item.type = r.item.type → c.item.id = r.item.id →
          Score.le c.score r.score) :=
  ⟨⟨by decide, by decide, by decide⟩,
    search_limit_dedup_maxscore exCfg exFm 1 "paris" {} (by decide) (by decide)
      (by decide)⟩

/-- Claim C2 counterexample: with the default threshold 0.3 and a library
match distance of 0.65 the candidate is kept (raw similarity 0.35 ≥ 0.3),
but the returned fuzzy-tier entry stores `_score = 0.35 * 0.8 = 0.28`,
which is below `options.threshold`: the threshold filter runs on the
unscaled similarity, before the 0.8 scaling.  (The NLP tier is empty here,
so the single returned entry comes from the fuzzy tier.) -/
theorem fuzzy_threshold_counterexample :
    (searchFuel exCfgC2 exFm 1 "temple" ({} : SOptions)).map ResultEntry.score =
      [Score.ofFrac 28 100] ∧
    Score.lt (Score.ofFrac 28 100) ({} : SOptions).threshold ∧
    nlpResultsF exCfgC2 exFm 1 "temple" ({} : SOptions) = [] :=
  ⟨by decide, by decide, by decide⟩

/-- Claim C2, amended: a fuzzy candidate is kept only if its unscaled
similarity `1 - matchDistance` is at least `options.threshold`; the stored
`_score` is the similarity scaled by 0.8, hence every fuzzy-tier entry
satisfies `_score ≥ 0.8 * options.threshold` (not `≥ options.threshold`). -/
theorem fuzzy_threshold_amended (cfg : SearchConfig)
    (fm : List (String × List Item)) (q : String) (opts : SOptions) :
    ∀ pr ∈ fuzzyTier cfg fm q opts,
      Score.le (Score.mul opts.threshold c08) pr.2.score :=
  scoreLB_fuzzyTier cfg fm q opts

/-- Claim C2 amended-theorem witness. -/
theorem fuzzy_threshold_amended_witness :
    (("people" ++ "-" ++ "r1", exEntryC2) ∈
        fuzzyTier exCfgC2 exFm "temple" ({} : SOptions)) ∧
    Score.le (Score.mul ({} : SOptions).threshold c08) exEntryC2.score :=
  ⟨by decide, fuzzy_threshold_amended exCfgC2 exFm "temple" {}
    ("people" ++ "-" ++ "r1", exEntryC2) (by decide)⟩

/-- Claim C3 counterexample: `parseQuery("find cheap food")` derives
`amount.max = 20` but leaves the `type` filter unset — `food` is not a
keyword of the type table (only temple, restaurant, museum, hotel,
flight are), so `filters.type` is not `"food"`. -/
theorem parse_cheap_food_counterexample :
    (extractFilters [] [] "find cheap food").amount = some ⟨none, some 20⟩ ∧
    (extractFilters [] [] "find cheap food").type = none :=
  ⟨by decide, by decide⟩

/-- Claim C3, amended: for every entity-extraction result of the query,
`parseQuery("find cheap food")` yields `filters.amount.max = 20` and no
`type` filter. -/
theorem parse_cheap_food_amended (places people : List String) :
    (extractFilters places people "find cheap food").amount =
      some ⟨none, some 20⟩ ∧
    (extractFilters places people "find cheap food").type = none := by
  cases places <;> cases people <;> exact ⟨rfl, rfl⟩

/-- Claim C4 counterexample: the text `shop` earns the category
`shopping` (its keyword `shop` occurs), but `shopping` is never a topic —
`extractTopics` only consults the four sets travel, food, culture,
nature. -/
theorem topics_vocabulary_counterexample :
    categorizeContent "shop" = ["shopping"] ∧ extractTopics "shop" = [] :=
  ⟨by decide, by decide⟩

/-- Claim C4, amended: the category list contains a label exactly when a
keyword of that label's set in the eight-entry category table occurs
case-insensitively in the text; the topic list obeys the same rule but
only over the four-entry topic table (travel, food, culture, nature), so
the other four labels are never topics. -/
theorem topics_categories_amended (text label : String) :
    (label ∈ extractTopics text ↔
      ∃ kws, (label, kws) ∈ topicTable ∧
        anyKeyword (lowerStr text) kws = true) ∧
    (label ∈ categorizeContent text ↔
      ∃ kws, (label, kws) ∈ categoryTable ∧
        anyKeyword (lowerStr text) kws = true) :=
  ⟨mem_labelTable topicTable (lowerStr text) label,
    mem_labelTable categoryTable (lowerStr text) label⟩

/-- Claim C5: when reading collection `c` throws, the index build still
completes; `c` contributes nothing (no Fuse instance, hence no search
results tagged `c`), and every successfully read collection is indexed
with its full processed contents. -/
theorem index_resilience (store : String → Except String (List Item))
    (c : String) (err : String) (hc : c ∈ stores)
    (herr : store c = Except.error err) :
    (∀ pr ∈ buildSearchIndex store, pr.1 ≠ c) ∧
    (∀ s ∈ stores, ∀ items, store s = Except.ok items →
      (s, items.map (processItem s)) ∈ buildSearchIndex store) ∧
    (∀ (cfg : SearchConfig) (fuel : Nat) (q : String) (opts : SOptions),
      ∀ r ∈ searchFuel cfg (buildSearchIndex store) fuel q opts,
        r.item.type ≠ c) := by
  have h1 : ∀ pr ∈ buildSearchIndex store, pr.1 ≠ c := by
    intro pr hpr
    rcases mem_foldl_append store _ _ hpr with h | ⟨s, _, hps⟩
    · exact absurd h (List.not_mem_nil pr)
    · obtain ⟨items, hok, rfl⟩ := mem_processStore hps
      intro hcc
      have hcc' : s = c := hcc
      rw [hcc', herr] at hok
      exact absurd hok (by simp)
  refine ⟨h1, ?_, ?_⟩
  · intro s hs items hok
    unfold buildSearchIndex buildUpTo
    rw [List.take_length]
    exact mem_foldl_append_of_ok store stores [] hs hok
  · intro cfg fuel q opts r hr
    have hmem := searchFuel_types (buildSearchIndex_wellFormed store)
      fuel q opts r hr
    obtain ⟨pr, hpr, hfst⟩ := List.mem_map.mp hmem
    rw [← hfst]
    exact h1 pr hpr

/-- Claim C5 witness: `people` fails, the other seven collections stay
searchable. -/
theorem index_resilience_witness :
    ("people" ∈ stores ∧ exStoreFail "people" = Except.error "boom") ∧
    ((∀ pr ∈ buildSearchIndex exStoreFail, pr.1 ≠ "people") ∧
      (∀ s ∈ stores, ∀ items, exStoreFail s = Except.ok items →
        (s, items.map (processItem s)) ∈ buildSearchIndex exStoreFail) ∧
      (∀ (cfg : SearchConfig) (fuel : Nat) (q : String) (opts : SOptions),
        ∀ r ∈ searchFuel cfg (buildSearchIndex exStoreFail) fuel q opts,
          r.item.type ≠ "people")) :=
  ⟨⟨by decide, rfl⟩, index_resilience exStoreFail "people" "boom" (by decide) rfl⟩

set_option maxRecDepth 4000 in
/-- Claim C6 counterexample: a semantic-path search returned no local
results; the Enrichment Client call fails; the failure is swallowed, but
because the substitute response carries `searchTerms = [originalQuery]`,
the feedback block re-runs the base search and, finding strictly more
results, replaces the original (empty) result set — the original
local-only results are not returned unchanged. -/
theorem enrichment_failure_counterexample :
    semanticSearch exCfg exFm 1 "pizza in rome" none = [] ∧
    handleAIEnhance exCfg exFm 1 "pizza in rome"
        (semanticSearch exCfg exFm 1 "pizza in rome" none)
        (Except.error "network") ≠
      semanticSearch exCfg exFm 1 "pizza in rome" none :=
  ⟨by decide, by decide⟩

/-- Claim C6, amended: a failing enrichment call never throws to the
caller and is replaced by the substitute response
`{searchTerms: [query], filters: {}, suggestions: []}`; because those
substitute terms are nonempty, the block then re-runs the base search on
the original query and still replaces the result set when that re-search
returns strictly more results.  On success the result set is replaced
exactly when the returned terms are nonempty and the re-search over them
returns strictly more results. -/
theorem enrichment_failure_amended (cfg : SearchConfig)
    (fm : List (String × List Item)) (fuel : Nat) (q : String)
    (results : List ResultEntry) (err : String) :
    handleAIEnhance cfg fm fuel q results (Except.error err) =
      (if 8 < q.length ∧ results.length < 5 ∧
          results.length < (searchFuel cfg fm fuel q ({} : SOptions)).length
        then searchFuel cfg fm fuel q ({} : SOptions) else results) ∧
    aiEnhancedSearchModel (Except.error err) q =
      { searchTerms := [q], filters := [], suggestions := [] } ∧
    ∀ resp : AIResp, handleAIEnhance cfg fm fuel q results (Except.ok resp) =
      (if 8 < q.length ∧ results.length < 5 ∧ resp.searchTerms ≠ [] ∧
          results.length < (searchFuel cfg fm fuel
            (joinSpace resp.searchTerms) ({} : SOptions)).length
        then searchFuel cfg fm fuel (joinSpace resp.searchTerms) ({} : SOptions)
        else results) := by
  refine ⟨?_, rfl, ?_⟩
  · unfold handleAIEnhance
    simp only [aiEnhancedSearchModel, joinSpace_single]
    by_cases h1 : 8 < q.length ∧ results.length < 5
    · rw [if_pos h1]
      have hne : ([q] : List String) ≠ [] := by simp
      rw [if_pos hne]
      by_cases h2 : results.length <
          (searchFuel cfg fm fuel q ({} : SOptions)).length
      · rw [if_pos h2, if_pos ⟨h1.1, h1.2, h2⟩]
      · rw [if_neg h2, if_neg (fun h => h2 h.2.2)]
    · rw [if_neg h1, if_neg (fun h => h1 ⟨h.1, h.2.1⟩)]
  · intro resp
    unfold handleAIEnhance
    simp only [aiEnhancedSearchModel]
    by_cases h1 : 8 < q.length ∧ results.length < 5
    · rw [if_pos h1]
      by_cases hne : resp.searchTerms ≠ []
      · rw [if_pos hne]
        by_cases h2 : results.length < (searchFuel cfg fm fuel
            (joinSpace resp.searchTerms) ({} : SOptions)).length
        · rw [if_pos h2, if_pos ⟨h1.1, h1.2, hne, h2⟩]
        · rw [if_neg h2, if_neg (fun h => h2 h.2.2.2)]
      · rw [if_neg hne, if_neg (fun h => hne h.2.2.1)]
    · rw [if_neg h1, if_neg (fun h => h1 ⟨h.1, h.2.1⟩)]

/-- Claim C7: when the record's description is longer than 150 characters
and contains a query-word match, the snippet is at most 153 characters
(150 plus the ellipsis) and ends in `...` whenever the selected sentence
was actually cut. -/
theorem snippet_truncation (it : Item) (q : String)
    (h1 : 150 < it.description.length)
    (h2 : 0 < matchCount (queryWords q) it.description) :
    (generateSnippet it q).length ≤ 153 ∧
    (150 < (jsTrim (bestSentence it q)).length →
      List.IsSuffix ("...".data) (generateSnippet it q).data) := by
  rw [generateSnippet_eq]
  constructor
  · rw [String.length_append]
    have htake : (jsTake 150 (jsTrim (bestSentence it q))).length ≤ 150 := by
      show (List.take 150 (jsTrim (bestSentence it q)).data).length ≤ 150
      rw [List.length_take]
      exact min_le_left _ _
    by_cases hb : 150 < (bestSentence it q).length
    · rw [if_pos hb]
      have h3 : ("..." : String).length = 3 := rfl
      omega
    · rw [if_neg hb]
      have h0 : ("" : String).length = 0 := rfl
      omega
  · intro htrim
    have hb : 150 < (bestSentence it q).length :=
      lt_of_lt_of_le htrim (jsTrim_length_le _)
    rw [if_pos hb, String.data_append]
    exact List.suffix_append _ _

set_option maxRecDepth 8000 in
/-- Claim C7 witness: a 160-character description matched by the query
`word`; the snippet is cut to 150 characters plus `...`. -/
theorem snippet_truncation_witness :
    (150 < exItemC7.description.length ∧
      0 < matchCount (queryWords "word") exItemC7.description) ∧
    ((generateSnippet exItemC7 "word").length ≤ 153 ∧
      (150 < (jsTrim (bestSentence exItemC7 "word")).length →
        List.IsSuffix ("...".data) (generateSnippet exItemC7 "word").data)) :=
  ⟨⟨by decide, by decide⟩, snippet_truncation exItemC7 "word" (by decide)
    (by decide)⟩

/-- Claim C8 counterexample: during a rebuild a concurrent reader can
observe the cleared Fuse-instance map (the state visible while the first
`await database.getAll` is pending), which is neither the old index state
(here: the nonempty result of the previous build over the same store) nor
the new one — the rebuild clears and repopulates in place, it is not
atomic. -/
theorem index_atomicity_counterexample :
    [] ∈ buildVisibleStates exStoreOk ∧ buildSearchIndex exStoreOk ≠ [] :=
  ⟨by decide, by decide⟩

/-- Claim C8, amended: the rebuild is not atomic; the state a concurrent
reader observes while the k-th collection read is pending is exactly the
prefix of the new index holding the first k collections (the old index
contents are gone from the start). -/
theorem index_atomicity_amended (store : String → Except String (List Item))
    (k : Nat) :
    buildUpTo store k ++
      (stores.drop k).foldl (fun m s => m ++ processStore store s) [] =
      buildSearchIndex store := by
  unfold buildSearchIndex buildUpTo
  rw [List.take_length]
  conv_rhs => rw [← List.take_append_drop k stores]
  rw [List.foldl_append,
    foldl_append_factor store (stores.drop k)
      (List.foldl (fun m s => m ++ processStore store s) [] (stores.take k))]

/-- Claim C9: when the parsed query has no people, no places, no location
filter and no person filter, `semanticSearch` returns the empty list, for
every index and module restriction. -/
theorem semantic_search_empty (cfg : SearchConfig)
    (fm : List (String × List Item)) (fuel : Nat) (q : String)
    (modules : Option (List String))
    (hp : (cfg.nlpParse q).entities.people = [])
    (hpl : (cfg.nlpParse q).entities.places = [])
    (hloc : (cfg.nlpParse q).filters.location = none)
    (hper : (cfg.nlpParse q).filters.person = none) :
    semanticSearch cfg fm fuel q modules = [] := by
  unfold semanticSearch searchByFilters
  simp [hp, hpl, hloc, hper, mergeMax, sortDesc, List.insertionSort]

/-- Claim C9 witness. -/
theorem semantic_search_empty_witness :
    ((exCfg.nlpParse "anything").entities.people = [] ∧
      (exCfg.nlpParse "anything").entities.places = [] ∧
      (exCfg.nlpParse "anything").filters.location = none ∧
      (exCfg.nlpParse "anything").filters.person = none) ∧
    semanticSearch exCfg exFm 1 "anything" none = [] :=
  ⟨⟨rfl, rfl, rfl, rfl⟩,
    semantic_search_empty exCfg exFm 1 "anything" none rfl rfl rfl rfl⟩

/-- Claim C10 counterexample: with ten distinct qualifying nouns one of
which is the word `journal` itself, `generateTags(text, "journal")` still
contains `journal` — the type is absent only when it does not coincide
with one of the first ten nouns. -/
theorem generateTags_type_counterexample :
    "journal" ∈ generateTags exNounsC10 "" (some "journal") ∧
    10 ≤ (dedupFirst ((exNounsC10.filter
      (fun n => 2 < n.length ∧ n.length < 20)).map lowerStr)).length :=
  ⟨by decide, by decide⟩

/-- Claim C10, amended: `generateTags` returns at most 10 tags, inserted
in the order nouns, topics, type, categories; when the text yields ten or
more distinct qualifying nouns and the type differs from all of their
lowercased forms, the supplied type is absent from the result. -/
theorem generateTags_cap_and_type (nouns : List String) (text : String)
    (t : String)
    (h10 : 10 ≤ (dedupFirst ((nouns.filter
      (fun n => 2 < n.length ∧ n.length < 20)).map lowerStr)).length)
    (ht : t ∉ (nouns.filter (fun n => 2 < n.length ∧ n.length < 20)).map
      lowerStr) :
    (generateTags nouns text (some t)).length ≤ 10 ∧
    t ∉ generateTags nouns text (some t) := by
  have hgen : generateTags nouns text (some t) =
      (dedupFirst (((nouns.filter (fun n => 2 < n.length ∧ n.length < 20)).map
        lowerStr) ++
        (extractTopics text ++ ([t] ++ categorizeContent text)))).take 10 := by
    unfold generateTags
    simp [List.append_assoc]
  constructor
  · rw [hgen, List.length_take]
    exact min_le_left _ _
  · rw [hgen]
    unfold dedupFirst at h10 ⊢
    rw [dedupGo_append]
    rw [List.take_append_of_le_length h10]
    intro hmem
    exact ht (mem_dedupGo (List.mem_of_mem_take hmem))

/-- Claim C10 amended-theorem witness. -/
theorem generateTags_cap_and_type_witness :
    (10 ≤ (dedupFirst ((exNounsW.filter
        (fun n => 2 < n.length ∧ n.length < 20)).map lowerStr)).length ∧
      "zulu" ∉ (exNounsW.filter
        (fun n => 2 < n.length ∧ n.length < 20)).map lowerStr) ∧
    ((generateTags exNounsW "" (some "zulu")).length ≤ 10 ∧
      "zulu" ∉ generateTags exNounsW "" (some "zulu")) :=
  ⟨⟨by decide, by decide⟩,
    generateTags_cap_and_type exNounsW "" "zulu" (by decide) (by decide)⟩
